import Mathlib

/-!
Verification of the collaborator-synchronization action.

This file shallowly embeds the TypeScript sources:
  - src/types.ts          (Collaborator, CollaboratorObject)
  - src/collaborator.ts   (parseCollaboratorsFile)
  - src/collaboratorManager.ts (CollaboratorManager and its passes)
  - src/main.ts           (legacy mapRoleToPermission helper)
and proves / refutes the frozen specification claims about them.

Machine conventions: JavaScript runtime values that may violate the static
`string` type of `Collaborator.username` are modelled by `UVal`; a failed
`throw` is modelled by `Except.error` carrying the message string; the
sequence of mutating octokit calls issued by one run is modelled as an
explicit trace (`List ApiCall`).
-/

namespace Collab

/-- Runtime value sitting in the `username` field of a desired-collaborator
entry.  The static TS type says `string`, but entries come from YAML, so the
manager defensively validates.  `missing` is JS `undefined` (absent field),
`nullv` is JS `null`, `str` a string, and `nonString` any other (truthy)
value, carrying its JSON serialization. -/
inductive UVal where
  | missing
  | nullv
  | str (s : String)
  | nonString (repr : String)
deriving DecidableEq

/-- JS truthiness of a `UVal` (`!c.username` in the source negates this).
`missing`, `null` and the empty string are falsy; `nonString` stands for
truthy non-string values. -/
def UVal.truthy : UVal → Bool
  | .missing => false
  | .nullv => false
  | .str s => !(s == "")
  | .nonString _ => true

/-- Underlying string of a `UVal`; only meaningful for `.str`.  The manager
 passes only run after `getDesiredUsernames` has validated that every
username is a (truthy) string, so the default is never reached on the
executions the theorems talk about. -/
def UVal.strOrEmpty : UVal → String
  | .str s => s
  | _ => ""

/-- JavaScript `String.prototype.toLowerCase()`, per-character ASCII
lower-casing (the standard library's `String.toLower`, written structurally
on the character list so that proofs can evaluate it). -/
def lowerStr (s : String) : String := ⟨s.data.map Char.toLower⟩

/-- Desired collaborator entry (interface `Collaborator` of src/types.ts):
a username and a (already normalized) role string. -/
structure Collaborator where
  username : UVal
  role : String
deriving DecidableEq

/-- JSON.stringify of a desired entry, as used in the validation error
messages of `getDesiredUsernames` (collaboratorManager.ts, lines 96 and 100). -/
def serializeCollab (c : Collaborator) : String :=
  match c.username with
  | .missing => "\x7b\"role\":\"" ++ c.role ++ "\"\x7d"
  | .nullv => "\x7b\"username\":null,\"role\":\"" ++ c.role ++ "\"\x7d"
  | .str s => "\x7b\"username\":\"" ++ s ++ "\",\"role\":\"" ++ c.role ++ "\"\x7d"
  | .nonString rp => "\x7b\"username\":" ++ rp ++ ",\"role\":\"" ++ c.role ++ "\"\x7d"

/-- Message of the `Collaborator entry is missing username` throw. -/
def missingMsg (c : Collaborator) : String :=
  "Collaborator entry is missing username: " ++ serializeCollab c

/-- Message of the `Collaborator username must be a string` throw. -/
def nonStringMsg (c : Collaborator) : String :=
  "Collaborator username must be a string, got: " ++ serializeCollab c

/-- Validation of a single desired entry, the body of the `map` in
`getDesiredUsernames` (collaboratorManager.ts lines 93-105): falsy username
throws the missing-username error, non-string throws the must-be-a-string
error, otherwise the lower-cased username is returned. -/
def validateUsername (c : Collaborator) : Except String String :=
  if c.username.truthy then
    match c.username with
    | .str s => .ok (lowerStr s)
    | _ => .error (nonStringMsg c)
  else .error (missingMsg c)

/-- `Array.prototype.map` with a throwing body: the first exception aborts
and propagates. -/
def mapExcept (f : α → Except String β) : List α → Except String (List β)
  | [] => .ok []
  | a :: as =>
    match f a with
    | .error e => .error e
    | .ok b =>
      match mapExcept f as with
      | .error e => .error e
      | .ok bs => .ok (b :: bs)

/-- `CollaboratorManager.getDesiredUsernames`: validate every entry and
extract the lower-cased usernames; the first invalid entry aborts the run. -/
def getDesiredUsernames (cs : List Collaborator) : Except String (List String) :=
  mapExcept validateUsername cs

/-- An observed repository collaborator (element of the octokit
`listCollaborators` response). -/
structure RepoCollaborator where
  login : String
  role_name : String
deriving DecidableEq

/-- Invitee of a pending invitation. -/
structure Invitee where
  login : String
deriving DecidableEq

/-- An observed pending invitation (element of the octokit
`listInvitations` response); the invitee may be absent. -/
structure RepoInvitation where
  id : Nat
  invitee : Option Invitee
  permissions : String
deriving DecidableEq

/-- Remote repository state, as the engine can observe it.  Collaborators
are served in pages (the remote API limits page size, and the code walks
`paginate.iterator`).  Modelled from the spec: the pending-invitation set is
served by `listInvitations()` as one complete sequence (spec section 6 gives
the remote-access capability as `listInvitations() -> sequence`); the
underlying octokit client is not part of this repository's sources. -/
structure RemoteState where
  collaboratorPages : List (List RepoCollaborator)
  invitations : List RepoInvitation
deriving DecidableEq

/-- A mutating octokit call issued by the engine.  The read-only calls
(`listCollaborators`, `listInvitations`) are not part of the trace. -/
inductive ApiCall where
  | addCollaborator (username : String) (permission : String)
  | removeCollaborator (username : String)
  | deleteInvitation (invitation_id : Nat)
deriving DecidableEq

/-- The predicate of the `currentCollaborators.find` call on line 123-125:
`c.login.toLowerCase() === username` (with `username` already lower-cased). -/
def collabMatches (username : String) (c : RepoCollaborator) : Bool :=
  lowerStr c.login == username

/-- The predicate of the `pendingInvites.find` call on lines 137-140:
`invite.invitee && invite.invitee.login.toLowerCase() === username`. -/
def inviteMatches (username : String) (i : RepoInvitation) : Bool :=
  match i.invitee with
  | some v => lowerStr v.login == username
  | none => false

/-- `CollaboratorManager.handleExistingCollaborator` (lines 163-186): if the
current role differs, one upsert call with the desired role; otherwise
nothing. -/
def handleExistingCollaborator (ex : RepoCollaborator) (c : Collaborator)
    (role : String) : List ApiCall :=
  if ex.role_name != role then
    [.addCollaborator c.username.strOrEmpty role]
  else []

/-- `CollaboratorManager.handlePendingInvite` (lines 191-219): if the offered
permission differs, delete the invitation and then send a fresh upsert call;
otherwise nothing. -/
def handlePendingInvite (pi : RepoInvitation) (c : Collaborator)
    (role : String) : List ApiCall :=
  if pi.permissions != role then
    [.deleteInvitation pi.id, .addCollaborator c.username.strOrEmpty role]
  else []

/-- Body of the loop of `processCollaboratorsToAddOrUpdate` (lines 118-157)
for one desired entry: existing-collaborator branch first, then
pending-invite branch, then plain add. -/
def addOrUpdateOne (cur : List RepoCollaborator) (inv : List RepoInvitation)
    (c : Collaborator) : List ApiCall :=
  let username := lowerStr c.username.strOrEmpty
  let role := c.role
  match cur.find? (collabMatches username) with
  | some ex => handleExistingCollaborator ex c role
  | none =>
    match inv.find? (inviteMatches username) with
    | some pi => handlePendingInvite pi c role
    | none => [.addCollaborator c.username.strOrEmpty role]

/-- `CollaboratorManager.processCollaboratorsToAddOrUpdate` (lines 111-158):
iterate the desired entries in input order. -/
def processCollaboratorsToAddOrUpdate (desired : List Collaborator)
    (cur : List RepoCollaborator) (inv : List RepoInvitation) : List ApiCall :=
  desired.flatMap (addOrUpdateOne cur inv)

/-- `CollaboratorManager.processCollaboratorsToRemove` (lines 224-245):
revoke every observed collaborator whose lower-cased login is not desired. -/
def processCollaboratorsToRemove (cur : List RepoCollaborator)
    (desiredUsernames : List String) : List ApiCall :=
  cur.flatMap fun c =>
    if desiredUsernames.contains (lowerStr c.login) then []
    else [.removeCollaborator c.login]

/-- `CollaboratorManager.processInvitesToRemove` (lines 250-273): skip
invitations without invitee, revoke those whose invitee is not desired. -/
def processInvitesToRemove (inv : List RepoInvitation)
    (desiredUsernames : List String) : List ApiCall :=
  inv.flatMap fun i =>
    match i.invitee with
    | none => []
    | some v =>
      if desiredUsernames.contains (lowerStr v.login) then []
      else [.deleteInvitation i.id]

/-- `CollaboratorManager.getCurrentState` (lines 54-87): the collaborator
pages are exhausted with `paginate.iterator` and pushed into one list; the
pending invitations come from the single `listInvitations` call. -/
def getCurrentState (r : RemoteState) :
    List RepoCollaborator × List RepoInvitation :=
  (r.collaboratorPages.foldl (fun acc page => acc ++ page) [], r.invitations)

/-- One `syncCollaborators` run (lines 33-49): observe, validate the desired
usernames (`getDesiredUsernames` throws before any mutating pass runs), then
the three passes in order.  Result: the trace of mutating calls issued, and
the outcome of the run. -/
def syncRun (desired : List Collaborator) (r : RemoteState) :
    List ApiCall × Except String Unit :=
  let obs := getCurrentState r
  match getDesiredUsernames desired with
  | .error e => ([], .error e)
  | .ok us =>
    (processCollaboratorsToAddOrUpdate desired obs.1 obs.2
      ++ processCollaboratorsToRemove obs.1 us
      ++ processInvitesToRemove obs.2 us, .ok ())

/-- `CollaboratorManager.syncCollaborators` as a function from desired list
and remote state to either the full mutating-call trace or the error it
throws. -/
def syncCollaborators (desired : List Collaborator) (r : RemoteState) :
    Except String (List ApiCall) :=
  match syncRun desired r with
  | (t, .ok _) => .ok t
  | (_, .error e) => .error e

/-- Modelled from the spec: smallest invitation id unused by the current
remote state (invitation ids are opaque unique tokens minted by the remote,
spec section 3; the remote service is not part of this repository's
sources). -/
def freshInvitationId (r : RemoteState) : Nat :=
  (r.invitations.map RepoInvitation.id).foldr max 0 + 1

/-- Modelled from the spec: the effect of one mutating call on the remote
state, per the remote-access capability of spec section 6 and the
postcondition of section 4.1.  `upsertCollaborator` updates the permission
of an existing collaborator; for a principal that is not yet a collaborator
it creates a fresh pending invitation offering exactly the requested
permission.  Pending invitations are immutable once created (spec section
3): an upsert never patches an existing invitation's offered permission in
place, which is why changing it requires the engine's delete-then-recreate
step (spec section 4.1, step b).  `revokeCollaborator` removes the
principal, and `deleteInvitation` removes the invitation with the given
id.  Identity is case-insensitive throughout (spec section 4.1, step 2). -/
def applyCall (r : RemoteState) (call : ApiCall) : RemoteState :=
  match call with
  | .addCollaborator u p =>
    let ul := lowerStr u
    if r.collaboratorPages.any (fun page => page.any (fun c => lowerStr c.login == ul)) then
      { r with collaboratorPages :=
          r.collaboratorPages.map (List.map fun c =>
            if lowerStr c.login == ul then { c with role_name := p } else c) }
    else
      { r with invitations :=
          r.invitations ++ [⟨freshInvitationId r, some ⟨u⟩, p⟩] }
  | .removeCollaborator u =>
    let ul := lowerStr u
    { r with collaboratorPages :=
        r.collaboratorPages.map (List.filter fun c => !(lowerStr c.login == ul)) }
  | .deleteInvitation id =>
    { r with invitations := r.invitations.filter fun i => !(i.id == id) }

/-- Apply a whole trace of mutating calls to the remote state, in order. -/
def applyTrace (r : RemoteState) (t : List ApiCall) : RemoteState :=
  t.foldl applyCall r

/-! ### The desired-state parser (src/collaborator.ts) -/

/-- A parsed YAML document value. -/
inductive Yaml where
  | nullv
  | str (s : String)
  | num (n : Int)
  | bool (b : Bool)
  | arr (elems : List Yaml)
  | obj (fields : List (String × Yaml))

/-- Property lookup on a YAML mapping. -/
def lookupField (fields : List (String × Yaml)) (k : String) : Option Yaml :=
  (fields.find? fun kv => kv.1 == k).map fun kv => kv.2

/-- Crude rendering of a YAML value, used only inside error messages. -/
def displayYaml : Yaml → String
  | .nullv => "null"
  | .str s => s
  | .num n => toString n
  | .bool b => if b then "true" else "false"
  | .arr _ => "[object Array]"
  | .obj _ => "[object Object]"

/-- JavaScript `String(x)` conversion, used by the mapping-format branch
(`String(role)` on line 84 of collaborator.ts).  In particular
`String(null)` is the four-letter string `"null"`. -/
def stringOfYaml : Yaml → String
  | .nullv => "null"
  | .str s => s
  | .num n => toString n
  | .bool b => if b then "true" else "false"
  | .arr _ => ""
  | .obj _ => "[object Object]"

/-- The runtime value of a property read, as a `UVal`. -/
def uvalOfField (v : Option Yaml) : UVal :=
  match v with
  | none => .missing
  | some .nullv => .nullv
  | some (.str s) => .str s
  | some y => .nonString (displayYaml y)

/-- The `CollaboratorObject` constructor (types.ts lines 22-25):
`this.role = role ? role.toLowerCase() : 'push'`.  A falsy role (absent,
null, empty string, false, 0) defaults to `push`; a truthy non-string role
makes `toLowerCase` throw a TypeError. -/
def collaboratorObject (username : UVal) (role : Option Yaml) :
    Except String Collaborator :=
  match role with
  | some (.str s) =>
    if s == "" then .ok ⟨username, "push"⟩ else .ok ⟨username, lowerStr s⟩
  | none => .ok ⟨username, "push"⟩
  | some .nullv => .ok ⟨username, "push"⟩
  | some (.bool false) => .ok ⟨username, "push"⟩
  | some (.num n) =>
    if n == 0 then .ok ⟨username, "push"⟩
    else .error "role.toLowerCase is not a function"
  | some _ => .error "role.toLowerCase is not a function"

/-- One member of a team (collaborator.ts line 51-55): property reads on the
member value; a null member makes the property read throw. -/
def parseMember (m : Yaml) (role : Option Yaml) : Except String Collaborator :=
  match m with
  | .nullv => .error "Cannot read properties of null"
  | .obj mf => collaboratorObject (uvalOfField (lookupField mf "username")) role
  | _ => collaboratorObject .missing role

/-- One team of the team-format branch (collaborator.ts lines 50-56). -/
def parseOneTeam (t : Yaml) : Except String (List Collaborator) :=
  match t with
  | .obj f =>
    match lookupField f "members" with
    | some (.arr ms) => mapExcept (fun m => parseMember m (lookupField f "role")) ms
    | _ => .error "team.members is not iterable"
  | _ => .error "team.members is not iterable"

/-- The team-format loop: members of all teams, in order. -/
def parseTeams : List Yaml → Except String (List Collaborator)
  | [] => .ok []
  | t :: ts =>
    match parseOneTeam t with
    | .error e => .error e
    | .ok cs =>
      match parseTeams ts with
      | .error e => .error e
      | .ok rest => .ok (cs ++ rest)

/-- One element of the standard array branch (collaborator.ts lines 61-70):
a bare string gets role `push`; an object contributes its `username` and
`role` properties; anything else throws. -/
def parseArrayElem (e : Yaml) : Except String Collaborator :=
  match e with
  | .str s => .ok ⟨.str s, "push"⟩
  | .obj f =>
    collaboratorObject (uvalOfField (lookupField f "username")) (lookupField f "role")
  | .arr _ => collaboratorObject .missing none
  | _ => .error ("Invalid collaborator format: " ++ displayYaml e)

/-- The duck-typed team-format detection (collaborator.ts lines 43-48): a
non-empty array whose first element is an object carrying both a `team` and
a `members` key. -/
def isTeamFormat : List Yaml → Bool
  | (.obj f) :: _ => (lookupField f "team").isSome && (lookupField f "members").isSome
  | _ => false

/-- `parseCollaboratorsFile` of src/collaborator.ts after YAML parsing
(file reading and the yaml library are external; the function is given the
parsed document).  Array documents are the team format or the standard array
format; mapping documents are validated to carry only string-or-null values
and each entry becomes `new CollaboratorObject(username, String(role))`;
everything else fails. -/
def parseCollaborators (doc : Yaml) : Except String (List Collaborator) :=
  match doc with
  | .arr elems =>
    if isTeamFormat elems then parseTeams elems
    else mapExcept parseArrayElem elems
  | .obj fields =>
    if fields.all fun kv =>
        match kv.2 with
        | .str _ => true
        | .nullv => true
        | _ => false then
      mapExcept
        (fun kv => collaboratorObject (.str kv.1) (some (.str (stringOfYaml kv.2))))
        fields
    else .error "Unable to parse collaborators file format"
  | _ => .error "Unable to parse collaborators file format"

/-- The outer wrapper of `parseCollaboratorsFile`: every error is re-thrown
with the `Failed to parse collaborator file` prefix. -/
def parseCollaboratorsFile (doc : Yaml) : Except String (List Collaborator) :=
  match parseCollaborators doc with
  | .ok cs => .ok cs
  | .error e => .error ("Failed to parse collaborator file: " ++ e)

/-- The legacy `mapRoleToPermission` helper of src/main.ts (lines 53-71):
returns the mapped permission and whether the unknown-role warning was
emitted. -/
def mapRoleToPermission (role : String) : String × Bool :=
  match lowerStr role with
  | "admin" => ("admin", false)
  | "member" => ("push", false)
  | "pull" => (lowerStr role, false)
  | "push" => (lowerStr role, false)
  | "maintain" => (lowerStr role, false)
  | "triage" => (lowerStr role, false)
  | _ => ("push", true)

/-! ### Generic helper lemmas -/

/-- The pagination loop of `getCurrentState` accumulates by appending, hence
computes the flattening of all pages. -/
theorem foldl_append_eq_flatten (pages : List (List α)) (acc : List α) :
    pages.foldl (fun a p => a ++ p) acc = acc ++ pages.flatten := by
  induction pages generalizing acc with
  | nil => simp
  | cons p ps ih => simp [List.foldl_cons, ih]

/-- The observed collaborator list is exactly the flattening of the pages. -/
theorem getCurrentState_fst (r : RemoteState) :
    (getCurrentState r).1 = r.collaboratorPages.flatten := by
  simp [getCurrentState, foldl_append_eq_flatten]

/-! ### Claim C5 -/

/-- C5: observe-phase completeness.  The engine's observation is total:
every collaborator of every page served by the remote is in the observed
current-collaborator list, and the observed pending-invitation list is the
complete invitation sequence.  Both are computed by `getCurrentState` before
any diffing (`syncRun` passes exactly this observation to the three
passes). -/
theorem observe_phase_complete (r : RemoteState) :
    (∀ page ∈ r.collaboratorPages, ∀ c ∈ page, c ∈ (getCurrentState r).1)
    ∧ (getCurrentState r).2 = r.invitations := by
  constructor
  · intro page hp c hc
    rw [getCurrentState_fst]
    exact List.mem_flatten.mpr ⟨page, hp, hc⟩
  · rfl

/-- Witness for C5: a collaborator sitting on the second page is observed. -/
theorem observe_phase_complete_witness :
    (⟨"b", "push"⟩ : RepoCollaborator) ∈
      (getCurrentState ⟨[[⟨"a", "push"⟩], [⟨"b", "push"⟩]], []⟩).1 :=
  (observe_phase_complete ⟨[[⟨"a", "push"⟩], [⟨"b", "push"⟩]], []⟩).1
    [⟨"b", "push"⟩] (by decide) ⟨"b", "push"⟩ (by decide)

/-! ### Claim C9 -/

/-- C9: null-invitee skip.  Every deletion issued by the remove-invitations
pass originates from an observed invitation with a present invitee whose
canonical identity is absent from the desired set; an invitation whose
invitee is absent is never revoked, regardless of the desired list. -/
theorem removed_invites_have_invitee (inv : List RepoInvitation)
    (us : List String) (c : ApiCall)
    (hc : c ∈ processInvitesToRemove inv us) :
    ∃ j ∈ inv, ∃ v, j.invitee = some v ∧ lowerStr v.login ∉ us
      ∧ c = .deleteInvitation j.id := by
  rcases List.mem_flatMap.mp hc with ⟨j, hj, hcj⟩
  refine ⟨j, hj, ?_⟩
  cases hji : j.invitee with
  | none => simp [hji] at hcj
  | some v =>
    simp [hji] at hcj
    exact ⟨v, rfl, hcj.1, hcj.2⟩

/-- Witness for C9 at a concrete undesired invitation. -/
theorem removed_invites_have_invitee_witness :
    ∃ j ∈ ([⟨1, some ⟨"w"⟩, "push"⟩] : List RepoInvitation), ∃ v,
      j.invitee = some v ∧ lowerStr v.login ∉ ([] : List String)
      ∧ ApiCall.deleteInvitation 1 = .deleteInvitation j.id :=
  removed_invites_have_invitee [⟨1, some ⟨"w"⟩, "push"⟩] []
    (.deleteInvitation 1) (by decide)

/-! ### Claim C10 -/

/-- C10: collaborator-match precedence.  A desired entry whose canonical
identity matches an observed current collaborator is handled exclusively by
the existing-collaborator branch, even when a pending invitation also
matches; in particular its add-or-update handling never issues a
deleteInvitation call. -/
theorem collaborator_branch_precedence (cur : List RepoCollaborator)
    (inv : List RepoInvitation) (d : Collaborator) (c0 : RepoCollaborator)
    (hfind : cur.find? (collabMatches (lowerStr d.username.strOrEmpty)) = some c0)
    (_hinv : ∃ i ∈ inv, inviteMatches (lowerStr d.username.strOrEmpty) i = true) :
    addOrUpdateOne cur inv d = handleExistingCollaborator c0 d d.role
    ∧ ∀ idn, ApiCall.deleteInvitation idn ∉ addOrUpdateOne cur inv d := by
  have h1 : addOrUpdateOne cur inv d = handleExistingCollaborator c0 d d.role := by
    simp [addOrUpdateOne, hfind]
  refine ⟨h1, ?_⟩
  intro idn hmem
  rw [h1, handleExistingCollaborator] at hmem
  by_cases hr : c0.role_name != d.role
  · simp [hr] at hmem
  · simp [hr] at hmem

/-- Witness for C10: a principal that is both a collaborator and an invitee
is handled through the collaborator branch. -/
theorem collaborator_branch_precedence_witness :
    addOrUpdateOne [⟨"alice", "push"⟩] [⟨3, some ⟨"alice"⟩, "admin"⟩]
        ⟨.str "Alice", "push"⟩
      = handleExistingCollaborator ⟨"alice", "push"⟩ ⟨.str "Alice", "push"⟩ "push"
    ∧ ∀ idn, ApiCall.deleteInvitation idn ∉
        addOrUpdateOne [⟨"alice", "push"⟩] [⟨3, some ⟨"alice"⟩, "admin"⟩]
          ⟨.str "Alice", "push"⟩ :=
  collaborator_branch_precedence [⟨"alice", "push"⟩]
    [⟨3, some ⟨"alice"⟩, "admin"⟩] ⟨.str "Alice", "push"⟩ ⟨"alice", "push"⟩
    (by decide) ⟨⟨3, some ⟨"alice"⟩, "admin"⟩, by decide, by decide⟩

/-! ### Claim C3 -/

/-- C3: in the mapping format, a null (or missing) value does NOT default to
`push`: `String(null)` is the four-letter string `"null"`, which is truthy,
so the resulting entry carries the literal permission `"null"`. -/
theorem mapping_null_value_role :
    parseCollaborators (.obj [("alice", .nullv)]) = .ok [⟨.str "alice", "null"⟩]
    ∧ parseCollaboratorsFile (.obj [("alice", .nullv)])
        = .ok [⟨.str "alice", "null"⟩]
    ∧ ("null" : String) ≠ "push" :=
  ⟨rfl, rfl, by decide⟩

/-! ### Claim C4 -/

/-- C4: the active team-format parser passes role strings through (only
lower-casing them) instead of applying the documented role mapping: role
`member` yields permission `member`, an unknown role like `Boss` yields
`boss` with no warning; the legacy `mapRoleToPermission` helper of main.ts
implements the documented mapping (`member` to `push`, unknown to `push`
with a warning) but is not called by the active parser. -/
theorem team_format_role_passthrough :
    parseCollaborators (.arr [.obj [("team", .str "t"), ("role", .str "member"),
        ("members", .arr [.obj [("username", .str "alice")]])]])
      = .ok [⟨.str "alice", "member"⟩]
    ∧ mapRoleToPermission "member" = ("push", false)
    ∧ parseCollaborators (.arr [.obj [("team", .str "t"), ("role", .str "Boss"),
        ("members", .arr [.obj [("username", .str "al")]])]])
      = .ok [⟨.str "al", "boss"⟩]
    ∧ mapRoleToPermission "Boss" = ("push", true)
    ∧ ("member" : String) ≠ "push" :=
  ⟨rfl, rfl, rfl, rfl, by decide⟩

/-! ### Claim C8 -/

/-- If some element of the list makes the body throw, the mapped traversal
throws, and the error is the one of some (the first) failing element. -/
theorem mapExcept_error_of_bad (f : α → Except String β) (l : List α)
    (h : ∃ a ∈ l, ∃ e, f a = .error e) :
    ∃ a ∈ l, ∃ e, f a = .error e ∧ mapExcept f l = .error e := by
  induction l with
  | nil => rcases h with ⟨a, ha, _⟩; cases ha
  | cons x xs ih =>
    cases hfx : f x with
    | error e =>
      exact ⟨x, List.mem_cons_self x xs, e, hfx, by simp [mapExcept, hfx]⟩
    | ok b =>
      have h' : ∃ a ∈ xs, ∃ e, f a = .error e := by
        rcases h with ⟨a, ha, e, hae⟩
        rcases List.mem_cons.mp ha with rfl | hmem
        · rw [hfx] at hae; cases hae
        · exact ⟨a, hmem, e, hae⟩
      rcases ih h' with ⟨a, ha, e, hae, hrec⟩
      exact ⟨a, List.mem_cons_of_mem x ha, e, hae, by simp [mapExcept, hfx, hrec]⟩

/-- Validation of an entry with a missing, null or non-string username
throws, with the corresponding message. -/
theorem validateUsername_bad (d : Collaborator)
    (h : d.username = .missing ∨ d.username = .nullv
      ∨ ∃ rp, d.username = .nonString rp) :
    ∃ e, validateUsername d = .error e := by
  rcases h with h | h | ⟨rp, h⟩
  · exact ⟨missingMsg d, by simp [validateUsername, UVal.truthy, h]⟩
  · exact ⟨missingMsg d, by simp [validateUsername, UVal.truthy, h]⟩
  · exact ⟨nonStringMsg d, by simp [validateUsername, UVal.truthy, h]⟩

/-- Any error thrown by `validateUsername` is one of the two validation
messages about that entry, each of which carries the entry's serialized
form. -/
theorem validateUsername_error_form (c : Collaborator) (e : String)
    (h : validateUsername c = .error e) :
    e = missingMsg c ∨ e = nonStringMsg c := by
  unfold validateUsername at h
  split at h
  · split at h <;> simp_all
  · simp_all

/-- C8: validation fail-fast without mutation.  If any desired entry has a
missing (or null) username or a non-string username, the whole run issues
zero mutating calls and fails with the validation error of some offending
entry, whose message is one of the two validation messages (each reporting
the entry's serialized form). -/
theorem validation_failfast (D : List Collaborator) (r : RemoteState)
    (d : Collaborator) (hd : d ∈ D)
    (hbad : d.username = .missing ∨ d.username = .nullv
      ∨ ∃ rp, d.username = .nonString rp) :
    (syncRun D r).1 = [] ∧
    ∃ d' ∈ D, ∃ e, validateUsername d' = .error e
      ∧ syncCollaborators D r = .error e
      ∧ (e = missingMsg d' ∨ e = nonStringMsg d') := by
  obtain ⟨e0, he0⟩ := validateUsername_bad d hbad
  obtain ⟨d', hd', e, he, hmap⟩ :=
    mapExcept_error_of_bad validateUsername D ⟨d, hd, e0, he0⟩
  have hget : getDesiredUsernames D = .error e := hmap
  have hsync : syncRun D r = ([], .error e) := by
    simp [syncRun, hget]
  refine ⟨by rw [hsync], d', hd', e, he, ?_, validateUsername_error_form d' e he⟩
  simp [syncCollaborators, hsync]

/-- Witness for C8 at a concrete entry with a missing username. -/
theorem validation_failfast_witness :
    (syncRun [⟨.missing, "push"⟩] ⟨[], []⟩).1 = [] ∧
    ∃ d' ∈ ([⟨.missing, "push"⟩] : List Collaborator), ∃ e,
      validateUsername d' = .error e
      ∧ syncCollaborators [⟨.missing, "push"⟩] ⟨[], []⟩ = .error e
      ∧ (e = missingMsg d' ∨ e = nonStringMsg d') :=
  validation_failfast [⟨.missing, "push"⟩] ⟨[], []⟩ ⟨.missing, "push"⟩
    (List.mem_cons_self _ _) (Or.inl rfl)

/-! ### Claim C6 -/

/-- C6: case-insensitive identity matching.  A single desired entry and a
single remote principal at the same permission produce a run with zero
mutating calls exactly when their identities agree after lower-casing; this
holds both when the remote principal is a current collaborator and when it
is a pending invitation's invitee.  (In particular, desired `Alice` and
remote `alice` cause no upsert and no remove.) -/
theorem case_insensitive_identity (U L ρ : String) (hU : U ≠ "") :
    ((syncCollaborators [⟨.str U, ρ⟩] ⟨[[⟨L, ρ⟩]], []⟩ = .ok [])
        ↔ lowerStr U = lowerStr L)
    ∧ ((syncCollaborators [⟨.str U, ρ⟩] ⟨[], [⟨1, some ⟨L⟩, ρ⟩]⟩ = .ok [])
        ↔ lowerStr U = lowerStr L) := by
  have hUb : (U == "") = false := beq_eq_false_iff_ne.mpr hU
  have hval : getDesiredUsernames [⟨.str U, ρ⟩] = .ok [lowerStr U] := by
    simp [getDesiredUsernames, mapExcept, validateUsername, UVal.truthy, hUb]
  constructor
  · by_cases heq : lowerStr U = lowerStr L
    · have hb : (lowerStr L == lowerStr U) = true := by simp [heq]
      simp [syncCollaborators, syncRun, hval, getCurrentState,
        processCollaboratorsToAddOrUpdate, addOrUpdateOne, UVal.strOrEmpty,
        collabMatches, hb, handleExistingCollaborator,
        processCollaboratorsToRemove, processInvitesToRemove, heq]
    · have hb : (lowerStr L == lowerStr U) = false :=
        beq_eq_false_iff_ne.mpr (fun hx => heq hx.symm)
      simp [syncCollaborators, syncRun, hval, getCurrentState,
        processCollaboratorsToAddOrUpdate, addOrUpdateOne, UVal.strOrEmpty,
        collabMatches, hb, handleExistingCollaborator,
        processCollaboratorsToRemove, processInvitesToRemove, heq]
  · by_cases heq : lowerStr U = lowerStr L
    · have hb : (lowerStr L == lowerStr U) = true := by simp [heq]
      simp [syncCollaborators, syncRun, hval, getCurrentState,
        processCollaboratorsToAddOrUpdate, addOrUpdateOne, UVal.strOrEmpty,
        inviteMatches, hb, handlePendingInvite,
        processCollaboratorsToRemove, processInvitesToRemove, heq]
    · have hb : (lowerStr L == lowerStr U) = false :=
        beq_eq_false_iff_ne.mpr (fun hx => heq hx.symm)
      simp [syncCollaborators, syncRun, hval, getCurrentState,
        processCollaboratorsToAddOrUpdate, addOrUpdateOne, UVal.strOrEmpty,
        inviteMatches, hb, handlePendingInvite,
        processCollaboratorsToRemove, processInvitesToRemove, heq]

/-- Witness for C6: desired `Alice`, remote collaborator `alice`, same
permission: the run issues zero mutating calls. -/
theorem case_insensitive_identity_witness :
    syncCollaborators [⟨.str "Alice", "push"⟩] ⟨[[⟨"alice", "push"⟩]], []⟩
      = .ok [] :=
  ((case_insensitive_identity "Alice" "alice" "push" (by decide)).1).mpr
    (by decide)

/-! ### Call-origin helper lemmas -/

/-- Every call of the remove-invitations pass is the deletion of an observed
invitation with a present, undesired invitee. -/
theorem processInvitesToRemove_origin (inv : List RepoInvitation)
    (us : List String) (c : ApiCall)
    (hc : c ∈ processInvitesToRemove inv us) :
    ∃ j ∈ inv, ∃ v, j.invitee = some v ∧ lowerStr v.login ∉ us
      ∧ c = .deleteInvitation j.id := by
  rcases List.mem_flatMap.mp hc with ⟨j, hj, hcj⟩
  refine ⟨j, hj, ?_⟩
  cases hji : j.invitee with
  | none => simp [hji] at hcj
  | some v =>
    simp [hji] at hcj
    exact ⟨v, rfl, hcj.1, hcj.2⟩

/-- Every call of the remove-collaborators pass is the removal of an
observed collaborator whose canonical login is undesired. -/
theorem processCollaboratorsToRemove_origin (cur : List RepoCollaborator)
    (us : List String) (c : ApiCall)
    (hc : c ∈ processCollaboratorsToRemove cur us) :
    ∃ k ∈ cur, lowerStr k.login ∉ us ∧ c = .removeCollaborator k.login := by
  rcases List.mem_flatMap.mp hc with ⟨k, hk, hck⟩
  simp at hck
  exact ⟨k, hk, hck.1, hck.2⟩

/-- Membership in the remove-collaborators pass, as an iff. -/
theorem mem_processCollaboratorsToRemove (cur : List RepoCollaborator)
    (us : List String) (l : String) :
    ApiCall.removeCollaborator l ∈ processCollaboratorsToRemove cur us ↔
      ∃ k ∈ cur, k.login = l ∧ lowerStr k.login ∉ us := by
  constructor
  · intro h
    rcases processCollaboratorsToRemove_origin cur us _ h with ⟨k, hk, hkl, hke⟩
    exact ⟨k, hk, by cases hke; rfl, hkl⟩
  · rintro ⟨k, hk, rfl, hkl⟩
    refine List.mem_flatMap.mpr ⟨k, hk, ?_⟩
    simp [hkl]

/-- The calls produced by the add-or-update handling of one desired entry:
either the upsert for that entry, or the deletion of the invitation that the
entry's invite-lookup found. -/
theorem addOrUpdateOne_origin (cur : List RepoCollaborator)
    (inv : List RepoInvitation) (d : Collaborator) (c : ApiCall)
    (hc : c ∈ addOrUpdateOne cur inv d) :
    c = .addCollaborator d.username.strOrEmpty d.role ∨
    (∃ i0, inv.find? (inviteMatches (lowerStr d.username.strOrEmpty)) = some i0
      ∧ c = .deleteInvitation i0.id) := by
  simp only [addOrUpdateOne] at hc
  cases hcf : cur.find? (collabMatches (lowerStr d.username.strOrEmpty)) with
  | some ex =>
    rw [hcf] at hc
    simp only [handleExistingCollaborator] at hc
    split at hc
    · simp at hc; exact Or.inl hc
    · simp at hc
  | none =>
    rw [hcf] at hc
    cases hif : inv.find? (inviteMatches (lowerStr d.username.strOrEmpty)) with
    | some pi =>
      rw [hif] at hc
      simp only [handlePendingInvite] at hc
      split at hc
      · simp at hc
        rcases hc with hc | hc
        · exact Or.inr ⟨pi, rfl, hc⟩
        · exact Or.inl hc
      · simp at hc
    | none =>
      rw [hif] at hc
      simp at hc
      exact Or.inl hc

/-- The add-or-update pass issues no removeCollaborator calls. -/
theorem processAddOrUpdate_no_removes (D : List Collaborator)
    (cur : List RepoCollaborator) (inv : List RepoInvitation) (l : String) :
    ApiCall.removeCollaborator l ∉ processCollaboratorsToAddOrUpdate D cur inv := by
  intro h
  rcases List.mem_flatMap.mp h with ⟨d, _, hd⟩
  rcases addOrUpdateOne_origin cur inv d _ hd with h1 | ⟨i0, _, h1⟩ <;> cases h1

/-- Every upsert of the add-or-update pass carries the raw username and role
of one of the desired entries, and belongs to that entry's handling. -/
theorem processAddOrUpdate_add_origin (D : List Collaborator)
    (cur : List RepoCollaborator) (inv : List RepoInvitation)
    (u p : String)
    (h : ApiCall.addCollaborator u p ∈ processCollaboratorsToAddOrUpdate D cur inv) :
    ∃ d ∈ D, u = d.username.strOrEmpty ∧ p = d.role
      ∧ ApiCall.addCollaborator u p ∈ addOrUpdateOne cur inv d := by
  rcases List.mem_flatMap.mp h with ⟨d, hd, hmem⟩
  rcases addOrUpdateOne_origin cur inv d _ hmem with h1 | ⟨i0, _, h1⟩
  · cases h1; exact ⟨d, hd, rfl, rfl, hmem⟩
  · cases h1

/-- The lower-cased username list produced by a successful validation. -/
theorem validateUsername_ok_eq (c : Collaborator) (u : String)
    (h : validateUsername c = .ok u) : u = lowerStr c.username.strOrEmpty := by
  unfold validateUsername at h
  split at h
  · split at h
    · simp_all [UVal.strOrEmpty]
    · cases h
  · cases h

/-- A successful validation returns exactly the canonical (lower-cased)
usernames of the desired entries, in order. -/
theorem getDesiredUsernames_ok_eq (D : List Collaborator) (us : List String)
    (h : getDesiredUsernames D = .ok us) :
    us = D.map (fun d => lowerStr d.username.strOrEmpty) := by
  induction D generalizing us with
  | nil =>
    simp only [getDesiredUsernames, mapExcept] at h
    cases h; rfl
  | cons x xs ih =>
    simp only [getDesiredUsernames, mapExcept] at h
    cases hx : validateUsername x with
    | error e => rw [hx] at h; cases h
    | ok u =>
      rw [hx] at h
      cases hrest : mapExcept validateUsername xs with
      | error e => rw [hrest] at h; cases h
      | ok us' =>
        rw [hrest] at h
        cases h
        have := ih us' hrest
        simp [List.map_cons, ← this, validateUsername_ok_eq x u hx]

/-- A successful run decomposes into the three passes over the observation
and the validated canonical usernames. -/
theorem syncCollaborators_ok_eq (D : List Collaborator) (r : RemoteState)
    (us : List String) (T : List ApiCall)
    (hv : getDesiredUsernames D = .ok us)
    (hrun : syncCollaborators D r = .ok T) :
    T = processCollaboratorsToAddOrUpdate D (getCurrentState r).1 (getCurrentState r).2
      ++ processCollaboratorsToRemove (getCurrentState r).1 us
      ++ processInvitesToRemove (getCurrentState r).2 us := by
  simp only [syncCollaborators, syncRun, hv] at hrun
  cases hrun
  rfl

/-! ### Claim C7 -/

/-- C7: removal exactness.  In a successful run, a removeCollaborator call
for login `l` appears in the trace exactly when some observed collaborator
has that login and a canonical identity absent from the desired canonical
set; and an observed collaborator matched by a desired entry at the same
permission receives neither a remove nor an upsert call for its principal. -/
theorem removal_exactness (D : List Collaborator) (r : RemoteState)
    (us : List String) (T : List ApiCall)
    (hv : getDesiredUsernames D = .ok us) (hnd : us.Nodup)
    (hrun : syncCollaborators D r = .ok T) :
    (∀ l, ApiCall.removeCollaborator l ∈ T ↔
      ∃ k ∈ (getCurrentState r).1, k.login = l ∧ lowerStr k.login ∉ us)
    ∧ (∀ d ∈ D, ∀ s, d.username = .str s →
        ∀ c0, (getCurrentState r).1.find? (collabMatches (lowerStr s)) = some c0 →
          c0.role_name = d.role →
          (∀ l, lowerStr l = lowerStr s → ApiCall.removeCollaborator l ∉ T)
          ∧ (∀ u p, lowerStr u = lowerStr s → ApiCall.addCollaborator u p ∉ T)) := by
  have hT := syncCollaborators_ok_eq D r us T hv hrun
  have hus := getDesiredUsernames_ok_eq D us hv
  have hpart1 : ∀ l, ApiCall.removeCollaborator l ∈ T ↔
      ∃ k ∈ (getCurrentState r).1, k.login = l ∧ lowerStr k.login ∉ us := by
    intro l
    rw [hT]
    constructor
    · intro h
      rcases List.mem_append.mp h with h | h
      · rcases List.mem_append.mp h with h | h
        · exact absurd h (processAddOrUpdate_no_removes _ _ _ l)
        · exact (mem_processCollaboratorsToRemove _ _ l).mp h
      · rcases processInvitesToRemove_origin _ _ _ h with ⟨j, _, v, _, _, hje⟩
        cases hje
    · intro h
      exact List.mem_append.mpr (Or.inl (List.mem_append.mpr
        (Or.inr ((mem_processCollaboratorsToRemove _ _ l).mpr h))))
  refine ⟨hpart1, ?_⟩
  intro d hd s hs c0 hc0 hrole
  have hse : (UVal.str s).strOrEmpty = s := rfl
  have hmemus : lowerStr s ∈ us := by
    rw [hus]
    exact List.mem_map.mpr ⟨d, hd, by rw [hs, hse]⟩
  constructor
  · intro l hl hmem
    rcases (hpart1 l).mp hmem with ⟨k, _, hkl, hknot⟩
    rw [hkl, hl] at hknot
    exact hknot hmemus
  · intro u p hu hmem
    rw [hT] at hmem
    rcases List.mem_append.mp hmem with h | h
    · rcases List.mem_append.mp h with h | h
      · rcases processAddOrUpdate_add_origin D _ _ u p h with ⟨d', hd', hu', _, hmem'⟩
        have hinj := List.inj_on_of_nodup_map (hus ▸ hnd)
        have hdd : d' = d := by
          refine hinj hd' hd ?_
          rw [← hu', hu, hs, hse]
        rw [hdd] at hmem'
        have hone : addOrUpdateOne (getCurrentState r).1 (getCurrentState r).2 d
            = handleExistingCollaborator c0 d d.role := by
          have hpred : lowerStr d.username.strOrEmpty = lowerStr s := by
            rw [hs, hse]
          simp [addOrUpdateOne, hpred, hc0]
        rw [hone, handleExistingCollaborator] at hmem'
        rw [hrole] at hmem'
        simp at hmem'
      · rcases processCollaboratorsToRemove_origin _ _ _ h with ⟨k, _, _, hke⟩
        cases hke
    · rcases processInvitesToRemove_origin _ _ _ h with ⟨j, _, v, _, _, hje⟩
      cases hje

/-- Witness for C7, the spec's disjoint-removal example: remote collaborators
A at push and B at admin, desired A at push; the trace is exactly one removal
of B. -/
theorem removal_exactness_witness :
    ApiCall.removeCollaborator "b" ∈ ([.removeCollaborator "b"] : List ApiCall) ↔
      ∃ k ∈ (getCurrentState ⟨[[⟨"a", "push"⟩, ⟨"b", "admin"⟩]], []⟩).1,
        k.login = "b" ∧ lowerStr k.login ∉ ["a"] :=
  (removal_exactness [⟨.str "a", "push"⟩] ⟨[[⟨"a", "push"⟩, ⟨"b", "admin"⟩]], []⟩
    ["a"] [.removeCollaborator "b"] rfl (by decide) rfl).1 "b"

/-! ### Claim C2 -/

/-- C2: invitation replace-on-change ordering.  For a desired entry whose
canonical identity matches no current collaborator but matches a pending
invitation at a different offered permission, the successful run's trace
contains the deletion of that invitation immediately followed by the upsert
with the desired permission, and no upsert for that canonical identity
occurs anywhere before the deletion. -/
theorem invite_replace_order (D₁ D₂ : List Collaborator) (d : Collaborator)
    (r : RemoteState) (us : List String) (T : List ApiCall) (s : String)
    (i0 : RepoInvitation)
    (hv : getDesiredUsernames (D₁ ++ d :: D₂) = .ok us) (hnd : us.Nodup)
    (hrun : syncCollaborators (D₁ ++ d :: D₂) r = .ok T)
    (hs : d.username = .str s)
    (hnoc : (getCurrentState r).1.find? (collabMatches (lowerStr s)) = none)
    (hinv : (getCurrentState r).2.find? (inviteMatches (lowerStr s)) = some i0)
    (hne : i0.permissions ≠ d.role) :
    ∃ p, T[p]? = some (.deleteInvitation i0.id)
      ∧ T[p + 1]? = some (.addCollaborator s d.role)
      ∧ ∀ q < p, ∀ u ρ, T[q]? = some (.addCollaborator u ρ) →
          lowerStr u ≠ lowerStr s := by
  have hse : (UVal.str s).strOrEmpty = s := rfl
  have hT := syncCollaborators_ok_eq (D₁ ++ d :: D₂) r us T hv hrun
  have hbne : (i0.permissions != d.role) = true := bne_iff_ne.mpr hne
  have hentry : addOrUpdateOne (getCurrentState r).1 (getCurrentState r).2 d
      = [.deleteInvitation i0.id, .addCollaborator s d.role] := by
    simp [addOrUpdateOne, hs, UVal.strOrEmpty, hnoc, hinv,
      handlePendingInvite, hbne]
  have hsplit : processCollaboratorsToAddOrUpdate (D₁ ++ d :: D₂)
        (getCurrentState r).1 (getCurrentState r).2
      = processCollaboratorsToAddOrUpdate D₁ (getCurrentState r).1 (getCurrentState r).2
        ++ ([.deleteInvitation i0.id, .addCollaborator s d.role]
          ++ processCollaboratorsToAddOrUpdate D₂ (getCurrentState r).1 (getCurrentState r).2) := by
    simp only [processCollaboratorsToAddOrUpdate, List.flatMap_append,
      List.flatMap_cons, hentry]
  set P := processCollaboratorsToAddOrUpdate D₁ (getCurrentState r).1 (getCurrentState r).2 with hP
  have hTshape : T = P ++ ([.deleteInvitation i0.id, .addCollaborator s d.role]
      ++ (processCollaboratorsToAddOrUpdate D₂ (getCurrentState r).1 (getCurrentState r).2
        ++ processCollaboratorsToRemove (getCurrentState r).1 us
        ++ processInvitesToRemove (getCurrentState r).2 us)) := by
    rw [hT, hsplit]
    simp [List.append_assoc]
  refine ⟨P.length, ?_, ?_, ?_⟩
  · rw [hTshape, List.getElem?_append_right (Nat.le_refl P.length)]
    simp
  · rw [hTshape, List.getElem?_append_right (Nat.le_succ_of_le (Nat.le_refl P.length))]
    simp
  · intro q hq u ρ hTq
    rw [hTshape, List.getElem?_append] at hTq
    rw [if_pos hq] at hTq
    have hmem : ApiCall.addCollaborator u ρ ∈ P := List.getElem?_mem hTq
    rcases processAddOrUpdate_add_origin D₁ _ _ u ρ hmem with ⟨d', hd', hu', _, _⟩
    intro hlow
    have hus := getDesiredUsernames_ok_eq (D₁ ++ d :: D₂) us hv
    rw [List.map_append] at hus
    rcases List.nodup_append.mp (hus ▸ hnd) with ⟨_, _, hdisj⟩
    have hleft : lowerStr s ∈
        D₁.map (fun x => lowerStr x.username.strOrEmpty) := by
      refine List.mem_map.mpr ⟨d', hd', ?_⟩
      rw [← hu', hlow]
    have hright : lowerStr s ∈
        (d :: D₂).map (fun x => lowerStr x.username.strOrEmpty) := by
      refine List.mem_map.mpr ⟨d, List.mem_cons_self d D₂, ?_⟩
      rw [hs, hse]
    exact hdisj hleft hright

/-- Witness for C2, the spec's example: a pending invitation for `x` at
`push` and desired permission `admin` for `x` produces the trace
delete-invitation then upsert, in that order. -/
theorem invite_replace_order_witness :
    ∃ p, ([.deleteInvitation 7, .addCollaborator "x" "admin"] : List ApiCall)[p]?
        = some (.deleteInvitation 7)
      ∧ ([.deleteInvitation 7, .addCollaborator "x" "admin"] : List ApiCall)[p + 1]?
        = some (.addCollaborator "x" "admin")
      ∧ ∀ q < p, ∀ u ρ,
          ([.deleteInvitation 7, .addCollaborator "x" "admin"] : List ApiCall)[q]?
            = some (.addCollaborator u ρ) → lowerStr u ≠ lowerStr "x" :=
  invite_replace_order [] [] ⟨.str "x", "admin"⟩
    ⟨[], [⟨7, some ⟨"x"⟩, "push"⟩]⟩ ["x"]
    [.deleteInvitation 7, .addCollaborator "x" "admin"] "x"
    ⟨7, some ⟨"x"⟩, "push"⟩ rfl (by decide) rfl rfl rfl rfl (by decide)

/-! ### Machinery for the idempotence claim (C1)

The engine observes only the flattened collaborator list and the invitation
list, so the idempotence argument is carried out on that flat view of the
remote state. -/

/-- The flat view of a remote state: flattened collaborator pages plus the
invitation list, i.e. exactly what `getCurrentState` observes. -/
structure FlatState where
  cur : List RepoCollaborator
  inv : List RepoInvitation
deriving DecidableEq

/-- Fresh invitation id over a flat invitation list. -/
def freshIdF (inv : List RepoInvitation) : Nat :=
  (inv.map RepoInvitation.id).foldr max 0 + 1

/-- Modelled from the spec: `applyCall` on the flat view (same capability
semantics as `applyCall`, acting on the flattened collaborator list; the
upsert never patches a pending invitation in place, spec section 3). -/
def applyCallF (st : FlatState) (call : ApiCall) : FlatState :=
  match call with
  | .addCollaborator u p =>
    let ul := lowerStr u
    if st.cur.any (fun c => lowerStr c.login == ul) then
      { st with cur := st.cur.map fun c =>
          if lowerStr c.login == ul then { c with role_name := p } else c }
    else
      { st with inv := st.inv ++ [⟨freshIdF st.inv, some ⟨u⟩, p⟩] }
  | .removeCollaborator u =>
    let ul := lowerStr u
    { st with cur := st.cur.filter fun c => !(lowerStr c.login == ul) }
  | .deleteInvitation n =>
    { st with inv := st.inv.filter fun i => !(i.id == n) }

/-- Apply a trace on the flat view. -/
def applyTraceF (st : FlatState) (t : List ApiCall) : FlatState :=
  t.foldl applyCallF st

/-- The flat view of a remote state. -/
def view (r : RemoteState) : FlatState :=
  ⟨r.collaboratorPages.flatten, r.invitations⟩

/-- A pagewise `any` is an `any` over the flattening. -/
theorem any_pages_eq_any_flatten (pages : List (List RepoCollaborator))
    (p : RepoCollaborator → Bool) :
    pages.any (fun page => page.any p) = pages.flatten.any p := by
  induction pages with
  | nil => rfl
  | cons x xs ih => simp only [List.any_cons, List.flatten_cons, List.any_append, ih]

/-- A pagewise `filter` flattens to the `filter` of the flattening. -/
theorem flatten_map_filter (pages : List (List RepoCollaborator))
    (p : RepoCollaborator → Bool) :
    (pages.map (List.filter p)).flatten = pages.flatten.filter p := by
  induction pages with
  | nil => rfl
  | cons x xs ih =>
    simp only [List.map_cons, List.flatten_cons, List.filter_append, ih]

/-- A pagewise `map` flattens to the `map` of the flattening. -/
theorem flatten_map_map (pages : List (List RepoCollaborator))
    (f : RepoCollaborator → RepoCollaborator) :
    (pages.map (List.map f)).flatten = pages.flatten.map f := by
  induction pages with
  | nil => rfl
  | cons x xs ih =>
    simp only [List.map_cons, List.flatten_cons, List.map_append, ih]

/-- One mutating call commutes with taking the flat view. -/
theorem view_applyCall (r : RemoteState) (c : ApiCall) :
    view (applyCall r c) = applyCallF (view r) c := by
  cases c with
  | addCollaborator u p =>
    simp only [applyCall, applyCallF, view]
    have hany : r.collaboratorPages.any
        (fun page => page.any fun c => lowerStr c.login == lowerStr u)
        = r.collaboratorPages.flatten.any
          (fun c => lowerStr c.login == lowerStr u) :=
      any_pages_eq_any_flatten _ _
    by_cases h1 : r.collaboratorPages.flatten.any
        (fun c => lowerStr c.login == lowerStr u) = true
    · rw [if_pos (hany.trans h1), if_pos h1]
      simp only [List.flatten]
      rw [flatten_map_map]
    · rw [if_neg (fun hc => h1 (hany.symm.trans hc)), if_neg h1]
      simp only [freshInvitationId, freshIdF]
  | removeCollaborator u =>
    simp only [applyCall, applyCallF, view]
    rw [flatten_map_filter]
  | deleteInvitation n =>
    simp only [applyCall, applyCallF, view]

/-- A whole trace commutes with taking the flat view. -/
theorem view_applyTrace (r : RemoteState) (t : List ApiCall) :
    view (applyTrace r t) = applyTraceF (view r) t := by
  induction t generalizing r with
  | nil => rfl
  | cons c cs ih =>
    simp only [applyTrace, applyTraceF, List.foldl_cons]
    rw [← applyTrace, ← applyTraceF, ih, view_applyCall]

/-- The observation of a remote state is its flat view. -/
theorem getCurrentState_eq_view (r : RemoteState) :
    getCurrentState r = ((view r).cur, (view r).inv) := by
  simp [getCurrentState, view, foldl_append_eq_flatten]

/-- A member of a list of naturals is bounded by the foldr of max. -/
theorem le_foldr_max (l : List Nat) (a : Nat) (h : a ∈ l) :
    a ≤ l.foldr max 0 := by
  induction l with
  | nil => cases h
  | cons x xs ih =>
    rcases List.mem_cons.mp h with rfl | hmem
    · exact Nat.le_max_left _ _
    · exact Nat.le_trans (ih hmem) (Nat.le_max_right _ _)

/-- Every invitation id is below the fresh id. -/
theorem id_lt_freshIdF (inv : List RepoInvitation) (i : RepoInvitation)
    (h : i ∈ inv) : i.id < freshIdF inv :=
  Nat.lt_succ_of_le (le_foldr_max _ _ (List.mem_map_of_mem RepoInvitation.id h))

/-- Finding in a filtered list where every candidate passes the filter. -/
theorem find?_filter_of_mem_imp (l : List α) (p q : α → Bool)
    (h : ∀ x ∈ l, p x = true → q x = true) :
    (l.filter q).find? p = l.find? p := by
  induction l with
  | nil => rfl
  | cons x xs ih =>
    have ih' := ih fun y hy => h y (List.mem_cons_of_mem x hy)
    by_cases hq : q x = true
    · rw [List.filter_cons_of_pos hq]
      by_cases hp : p x = true
      · rw [List.find?_cons_of_pos _ hp, List.find?_cons_of_pos _ hp]
      · rw [List.find?_cons_of_neg _ hp, List.find?_cons_of_neg _ hp, ih']
    · have hp : ¬ p x = true := fun hc => hq (h x (List.mem_cons_self x xs) hc)
      rw [List.filter_cons_of_neg hq, ih', List.find?_cons_of_neg _ hp]

/-- Finding through a map that preserves the predicate and fixes every
matching element. -/
theorem find?_map_fix (l : List α) (p : α → Bool) (f : α → α)
    (hpres : ∀ x, p (f x) = p x) (hfix : ∀ x, p x = true → f x = x) :
    (l.map f).find? p = l.find? p := by
  induction l with
  | nil => rfl
  | cons x xs ih =>
    rw [List.map_cons]
    by_cases hp : p x = true
    · rw [List.find?_cons_of_pos _ (by rw [hpres]; exact hp),
        List.find?_cons_of_pos _ hp, hfix x hp]
    · rw [List.find?_cons_of_neg _ (by rw [hpres]; exact hp),
        List.find?_cons_of_neg _ hp, ih]

/-- Finding through a map that preserves the predicate. -/
theorem find?_map_pres (l : List α) (p : α → Bool) (f : α → α)
    (hpres : ∀ x, p (f x) = p x) :
    (l.map f).find? p = (l.find? p).map f := by
  induction l with
  | nil => rfl
  | cons x xs ih =>
    rw [List.map_cons]
    by_cases hp : p x = true
    · rw [List.find?_cons_of_pos _ (by rw [hpres]; exact hp),
        List.find?_cons_of_pos _ hp]
      rfl
    · rw [List.find?_cons_of_neg _ (by rw [hpres]; exact hp),
        List.find?_cons_of_neg _ hp, ih]

/-! ### Analysis of the add-or-update phase (for C1)

These definitions describe, for a processed prefix `Dp` of the desired
list, the state reached after applying the corresponding prefix of the
add-or-update trace: which collaborator roles were upserted, which
invitation was deleted (first match of a replaced entry), and which
surviving invitations had their permission refreshed. -/

/-- Canonical (lower-cased) identity of a desired entry. -/
def lowf (d : Collaborator) : String := lowerStr d.username.strOrEmpty

/-- Whether the entry's handling issues a role-updating upsert for an
existing collaborator (first match exists with a differing role). -/
def addIssued (C : List RepoCollaborator) (d : Collaborator) : Bool :=
  match C.find? (collabMatches (lowf d)) with
  | some c0 => c0.role_name != d.role
  | none => false

/-- Whether the entry's handling replaces a pending invitation (no current
collaborator matches, the first matching invitation offers a different
permission). -/
def inviteReplaced (C : List RepoCollaborator) (I : List RepoInvitation)
    (d : Collaborator) : Bool :=
  match C.find? (collabMatches (lowf d)) with
  | some _ => false
  | none =>
    match I.find? (inviteMatches (lowf d)) with
    | some i0 => i0.permissions != d.role
    | none => false

/-- Role update applied to an observed collaborator by the processed
prefix. -/
def updCollab (C : List RepoCollaborator) (Dp : List Collaborator)
    (c : RepoCollaborator) : RepoCollaborator :=
  match Dp.find? (fun d => lowf d == lowerStr c.login) with
  | some d => if addIssued C d then { c with role_name := d.role } else c
  | none => c

/-- Whether an observed invitation survives the processed prefix (it is not
the first match of a replaced entry). -/
def keepInv (C : List RepoCollaborator) (I : List RepoInvitation)
    (Dp : List Collaborator) (b : RepoInvitation) : Bool :=
  Dp.all fun d =>
    !(inviteReplaced C I d
      && decide (I.find? (inviteMatches (lowf d)) = some b))

/-- Collaborator role updates do not change the login. -/
theorem login_updCollab (C : List RepoCollaborator) (Dp : List Collaborator)
    (c : RepoCollaborator) : (updCollab C Dp c).login = c.login := by
  unfold updCollab
  split
  · split <;> rfl
  · rfl

/-- The collaborator-match predicate only looks at the login. -/
theorem collabMatches_updCollab (C : List RepoCollaborator)
    (Dp : List Collaborator) (u : String) (c : RepoCollaborator) :
    collabMatches u (updCollab C Dp c) = collabMatches u c := by
  unfold collabMatches
  rw [login_updCollab]

/-- Appending one entry to the processed prefix, on the keep-predicate. -/
theorem keepInv_append (C : List RepoCollaborator) (I : List RepoInvitation)
    (Dp : List Collaborator) (d : Collaborator) (b : RepoInvitation) :
    keepInv C I (Dp ++ [d]) b
      = (keepInv C I Dp b
        && !(inviteReplaced C I d
          && decide (I.find? (inviteMatches (lowf d)) = some b))) := by
  unfold keepInv
  rw [List.all_append]
  simp only [List.all_cons, List.all_nil, Bool.and_true]

/-- Appending a non-replacing entry does not change the keep-predicate. -/
theorem keepInv_append_of_not_replaced (C : List RepoCollaborator)
    (I : List RepoInvitation) (Dp : List Collaborator) (d : Collaborator)
    (hrep : inviteReplaced C I d = false) (b : RepoInvitation) :
    keepInv C I (Dp ++ [d]) b = keepInv C I Dp b := by
  rw [keepInv_append, hrep]
  simp

/-- Appending an entry that issues no collaborator upsert does not change
the collaborator update. -/
theorem updCollab_append_of_not_issued (C : List RepoCollaborator)
    (Dp : List Collaborator) (d : Collaborator)
    (hiss : addIssued C d = false) (c : RepoCollaborator) :
    updCollab C (Dp ++ [d]) c = updCollab C Dp c := by
  unfold updCollab
  rw [List.find?_append]
  cases hf : Dp.find? (fun d' => lowf d' == lowerStr c.login) with
  | some d' => rfl
  | none =>
    simp only [Option.none_or]
    cases hd : List.find? (fun d' => lowf d' == lowerStr c.login) [d] with
    | none => rfl
    | some d'' =>
      have : d'' = d := by
        have := List.mem_of_find?_eq_some hd
        simpa using this
      subst this
      simp [hiss]

/-- Invitation-side invariant: the invitations are the surviving observed
ones, untouched (pending invitations are immutable, spec section 3),
followed by the invitations created by the processed prefix, whose invitees
and permissions come from processed entries and whose ids avoid the
surviving observed ids. -/
def InvPart (C : List RepoCollaborator) (I : List RepoInvitation)
    (Dp : List Collaborator) (inv : List RepoInvitation) : Prop :=
  ∃ ext, inv = I.filter (keepInv C I Dp) ++ ext ∧
    (∀ i ∈ ext, ∃ d, d ∈ Dp ∧ i.invitee = some ⟨d.username.strOrEmpty⟩
      ∧ i.permissions = d.role) ∧
    (∀ i ∈ ext, ∀ b ∈ I, keepInv C I Dp b = true → b.id ≠ i.id)

/-- Convergence invariant for processed entries without a matching current
collaborator: the first matching invitation now offers exactly the desired
permission. -/
def Inv3Part (C : List RepoCollaborator) (I : List RepoInvitation)
    (Dp : List Collaborator) (inv : List RepoInvitation) : Prop :=
  ∀ d ∈ Dp, C.find? (collabMatches (lowf d)) = none →
    ∃ j, inv.find? (inviteMatches (lowf d)) = some j
      ∧ j.permissions = d.role

/-- The invariant describing the flat state reached after applying the
add-or-update calls of the processed prefix `Dp` to the observed state
`⟨C, I⟩`. -/
def T1Inv (C : List RepoCollaborator) (I : List RepoInvitation)
    (Dp : List Collaborator) (st : FlatState) : Prop :=
  st.cur = C.map (updCollab C Dp) ∧ InvPart C I Dp st.inv
    ∧ Inv3Part C I Dp st.inv

/-- The invariant holds initially (empty processed prefix). -/
theorem T1Inv_nil (C : List RepoCollaborator) (I : List RepoInvitation) :
    T1Inv C I [] ⟨C, I⟩ := by
  refine ⟨?_, ⟨[], ?_, ?_, ?_⟩, ?_⟩
  · exact ((List.map_congr_left fun c _ =>
      (rfl : updCollab C [] c = c)).trans (List.map_id' C)).symm
  · show I = I.filter (keepInv C I []) ++ []
    rw [List.append_nil]
    exact ((List.filter_congr fun b _ =>
      (rfl : keepInv C I [] b = true)).trans (List.filter_true I)).symm
  · intro i hi; cases hi
  · intro i hi; cases hi
  · intro d hd; cases hd

/-- Two match predicates can only both hold for the same canonical
identity. -/
theorem inviteMatches_unique (u₁ u₂ : String) (i : RepoInvitation)
    (h1 : inviteMatches u₁ i = true) (h2 : inviteMatches u₂ i = true) :
    u₁ = u₂ := by
  unfold inviteMatches at h1 h2
  cases hv : i.invitee with
  | none => rw [hv] at h1; cases h1
  | some v =>
    rw [hv] at h1 h2
    exact (eq_of_beq h1).symm.trans (eq_of_beq h2)

/-- Processed entries have canonical identities different from the entry
being processed (desired canonicals are distinct). -/
theorem lowf_ne_of_prefix (Dp Ds : List Collaborator) (d : Collaborator)
    (hnd : ((Dp ++ d :: Ds).map lowf).Nodup) :
    ∀ d' ∈ Dp, lowf d' ≠ lowf d := by
  rw [List.map_append] at hnd
  rcases List.nodup_append.mp hnd with ⟨_, _, hdisj⟩
  intro d' hd' heq
  exact hdisj (List.mem_map_of_mem lowf hd')
    (heq ▸ List.mem_map_of_mem lowf (List.mem_cons_self d Ds))

/-- An entry matching a current collaborator never replaces an
invitation. -/
theorem inviteReplaced_of_collab (C : List RepoCollaborator)
    (I : List RepoInvitation) (d : Collaborator) (c0 : RepoCollaborator)
    (hfc : C.find? (collabMatches (lowf d)) = some c0) :
    inviteReplaced C I d = false := by
  unfold inviteReplaced
  rw [hfc]

/-- An entry whose collaborator is already at the desired role issues no
upsert. -/
theorem addIssued_of_role_eq (C : List RepoCollaborator) (d : Collaborator)
    (c0 : RepoCollaborator)
    (hfc : C.find? (collabMatches (lowf d)) = some c0)
    (hrole : (c0.role_name != d.role) = false) :
    addIssued C d = false := by
  unfold addIssued
  rw [hfc]
  exact hrole

/-- An entry with no matching collaborator issues no collaborator
upsert. -/
theorem addIssued_of_none (C : List RepoCollaborator) (d : Collaborator)
    (hfc : C.find? (collabMatches (lowf d)) = none) :
    addIssued C d = false := by
  unfold addIssued
  rw [hfc]

/-- Pointwise-equal predicates give equal `any`. -/
theorem any_congr_pointwise (l : List α) (p q : α → Bool)
    (h : ∀ x ∈ l, p x = q x) : l.any p = l.any q := by
  induction l with
  | nil => rfl
  | cons x xs ih =>
    simp only [List.any_cons]
    rw [h x (List.mem_cons_self x xs),
      ih fun y hy => h y (List.mem_cons_of_mem x hy)]

/-- `any` over the updated collaborator list agrees with `any` over the
observed list, for a login-only predicate. -/
theorem cur_any_eq (C : List RepoCollaborator) (Dp : List Collaborator)
    (u : String) :
    (C.map (updCollab C Dp)).any (fun c => lowerStr c.login == u)
      = C.any (fun c => lowerStr c.login == u) := by
  rw [List.any_map]
  exact any_congr_pointwise C _ _ fun c _ => by
    simp only [Function.comp_apply, login_updCollab]

/-- `find?` over the updated collaborator list is the update of the
observed `find?`. -/
theorem cur_find_eq (C : List RepoCollaborator) (Dp : List Collaborator)
    (u : String) :
    (C.map (updCollab C Dp)).find? (collabMatches u)
      = (C.find? (collabMatches u)).map (updCollab C Dp) :=
  find?_map_pres C (collabMatches u) (updCollab C Dp)
    (collabMatches_updCollab C Dp u)

/-- Created invitations never match an unprocessed canonical identity. -/
theorem ext_find_none (Dp : List Collaborator) (d : Collaborator)
    (ext : List RepoInvitation)
    (hext : ∀ i ∈ ext, ∃ d', d' ∈ Dp
      ∧ i.invitee = some ⟨d'.username.strOrEmpty⟩ ∧ i.permissions = d'.role)
    (hne : ∀ d' ∈ Dp, lowf d' ≠ lowf d) :
    ext.find? (inviteMatches (lowf d)) = none := by
  rw [List.find?_eq_none]
  intro x hx hmatch
  obtain ⟨d', hd', hinvitee, _⟩ := hext x hx
  have hm' : inviteMatches (lowf d') x = true := by
    unfold inviteMatches
    rw [hinvitee]
    exact beq_self_eq_true _
  exact hne d' hd' (inviteMatches_unique (lowf d') (lowf d) x hm' hmatch)

/-- Observed invitations matching an unprocessed canonical identity all
survive the processed prefix. -/
theorem keepInv_of_match (C : List RepoCollaborator) (I : List RepoInvitation)
    (Dp : List Collaborator) (d : Collaborator)
    (hne : ∀ d' ∈ Dp, lowf d' ≠ lowf d) (x : RepoInvitation) (hx : x ∈ I)
    (hmatch : inviteMatches (lowf d) x = true) :
    keepInv C I Dp x = true := by
  unfold keepInv
  rw [List.all_eq_true]
  intro d' hd'
  rw [Bool.not_eq_true', Bool.and_eq_false_iff]
  right
  rw [decide_eq_false_iff_not]
  intro hfind
  have hm' : inviteMatches (lowf d') x = true := List.find?_some hfind
  exact hne d' hd' (inviteMatches_unique (lowf d') (lowf d) x hm' hmatch)

/-- For an unprocessed canonical identity, `find?` over the invariant
invitation list equals the observed `find?`. -/
theorem inv_find_eq (C : List RepoCollaborator) (I : List RepoInvitation)
    (Dp : List Collaborator) (d : Collaborator)
    (ext : List RepoInvitation)
    (hext : ∀ i ∈ ext, ∃ d', d' ∈ Dp
      ∧ i.invitee = some ⟨d'.username.strOrEmpty⟩ ∧ i.permissions = d'.role)
    (hne : ∀ d' ∈ Dp, lowf d' ≠ lowf d) :
    (I.filter (keepInv C I Dp) ++ ext).find? (inviteMatches (lowf d))
      = I.find? (inviteMatches (lowf d)) := by
  rw [List.find?_append]
  rw [ext_find_none Dp d ext hext hne]
  rw [find?_filter_of_mem_imp I _ _ (keepInv_of_match C I Dp d hne)]
  cases I.find? (inviteMatches (lowf d)) <;> rfl

/-- Appending an entry that does not match the collaborator leaves its
update unchanged. -/
theorem updCollab_append_of_not_match (C : List RepoCollaborator)
    (Dp : List Collaborator) (d : Collaborator) (c : RepoCollaborator)
    (hm : lowerStr c.login ≠ lowf d) :
    updCollab C (Dp ++ [d]) c = updCollab C Dp c := by
  unfold updCollab
  rw [List.find?_append]
  cases hf : Dp.find? (fun d' => lowf d' == lowerStr c.login) with
  | some d' => rfl
  | none =>
    rw [Option.none_or]
    have hfd : List.find? (fun d' => lowf d' == lowerStr c.login) [d]
        = none := by
      rw [List.find?_eq_none]
      intro x hx hb
      have hxd : x = d := by simpa using hx
      subst hxd
      exact hm (eq_of_beq hb).symm
    rw [hfd]

/-- Extending the invitation part by a non-replacing entry. -/
theorem InvPart_extend (C : List RepoCollaborator) (I : List RepoInvitation)
    (Dp : List Collaborator) (d : Collaborator) (inv : List RepoInvitation)
    (hrep : inviteReplaced C I d = false) (h : InvPart C I Dp inv) :
    InvPart C I (Dp ++ [d]) inv := by
  obtain ⟨ext, h2, h3, h4⟩ := h
  refine ⟨ext, ?_, ?_, ?_⟩
  · rw [h2,
      List.filter_congr fun b _ => keepInv_append_of_not_replaced C I Dp d hrep b]
  · intro i hi
    obtain ⟨d', hd', rest⟩ := h3 i hi
    exact ⟨d', List.mem_append.mpr (Or.inl hd'), rest⟩
  · intro i hi b hb hk
    apply h4 i hi b hb
    rw [keepInv_append, Bool.and_eq_true] at hk
    exact hk.1

/-- Extending the convergence part, given the new entry's own clause. -/
theorem Inv3Part_extend (C : List RepoCollaborator) (I : List RepoInvitation)
    (Dp : List Collaborator) (d : Collaborator) (inv : List RepoInvitation)
    (h : Inv3Part C I Dp inv)
    (hnew : C.find? (collabMatches (lowf d)) = none →
      ∃ j, inv.find? (inviteMatches (lowf d)) = some j
        ∧ j.permissions = d.role) :
    Inv3Part C I (Dp ++ [d]) inv := by
  intro d' hd' hfc'
  rcases List.mem_append.mp hd' with hmem | hmem
  · exact h d' hmem hfc'
  · have heq : d' = d := by simpa using hmem
    subst heq
    exact hnew hfc'

/-- Extending the whole invariant when the entry issues no call at all. -/
theorem T1Inv_extend_noop (C : List RepoCollaborator)
    (I : List RepoInvitation) (Dp : List Collaborator) (d : Collaborator)
    (st : FlatState)
    (hiss : addIssued C d = false) (hrep : inviteReplaced C I d = false)
    (hst : T1Inv C I Dp st)
    (hnew : C.find? (collabMatches (lowf d)) = none →
      ∃ j, st.inv.find? (inviteMatches (lowf d)) = some j
        ∧ j.permissions = d.role) :
    T1Inv C I (Dp ++ [d]) st := by
  obtain ⟨h1, h2, h3⟩ := hst
  refine ⟨?_, InvPart_extend C I Dp d st.inv hrep h2,
    Inv3Part_extend C I Dp d st.inv h3 hnew⟩
  rw [h1]
  exact (List.map_congr_left fun c _ =>
    updCollab_append_of_not_issued C Dp d hiss c).symm

/-- Step case: the entry matches a collaborator already at the desired
role; no call is issued. -/
theorem T1Inv_step_A_eq (C : List RepoCollaborator) (I : List RepoInvitation)
    (Dp : List Collaborator) (d : Collaborator) (st : FlatState)
    (c0 : RepoCollaborator)
    (hfc : C.find? (collabMatches (lowf d)) = some c0)
    (hrole : (c0.role_name != d.role) = false)
    (hst : T1Inv C I Dp st) : T1Inv C I (Dp ++ [d]) st :=
  T1Inv_extend_noop C I Dp d st (addIssued_of_role_eq C d c0 hfc hrole)
    (inviteReplaced_of_collab C I d c0 hfc) hst
    (fun hnone => absurd (hfc.symm.trans hnone) (by simp))

/-- Step case: the entry matches a collaborator at a different role; one
role-updating upsert is issued. -/
theorem T1Inv_step_A_ne (C : List RepoCollaborator) (I : List RepoInvitation)
    (Dp Ds : List Collaborator) (d : Collaborator) (st : FlatState)
    (c0 : RepoCollaborator)
    (hnd : ((Dp ++ d :: Ds).map lowf).Nodup)
    (hfc : C.find? (collabMatches (lowf d)) = some c0)
    (hrole : (c0.role_name != d.role) = true)
    (hst : T1Inv C I Dp st) :
    T1Inv C I (Dp ++ [d])
      (applyCallF st (.addCollaborator d.username.strOrEmpty d.role)) := by
  obtain ⟨h1, h2, h3⟩ := hst
  have hne := lowf_ne_of_prefix Dp Ds d hnd
  have hissued : addIssued C d = true := by
    unfold addIssued
    rw [hfc]
    exact hrole
  have hrep : inviteReplaced C I d = false :=
    inviteReplaced_of_collab C I d c0 hfc
  have hany : st.cur.any
      (fun c => lowerStr c.login == lowerStr d.username.strOrEmpty) = true := by
    rw [h1, cur_any_eq]
    have hp : collabMatches (lowf d) c0 = true := List.find?_some hfc
    exact List.any_eq_true.mpr ⟨c0, List.mem_of_find?_eq_some hfc, hp⟩
  have happly : applyCallF st (.addCollaborator d.username.strOrEmpty d.role)
      = { st with cur := st.cur.map fun c =>
          if lowerStr c.login == lowerStr d.username.strOrEmpty then
            { c with role_name := d.role }
          else c } := by
    simp only [applyCallF]
    rw [if_pos hany]
  rw [happly]
  refine ⟨?_, InvPart_extend C I Dp d st.inv hrep h2,
    Inv3Part_extend C I Dp d st.inv h3 ?_⟩
  · show st.cur.map _ = C.map (updCollab C (Dp ++ [d]))
    rw [h1, List.map_map]
    apply List.map_congr_left
    intro c _
    simp only [Function.comp_apply]
    by_cases hm : lowerStr c.login = lowf d
    · have hfDp : Dp.find? (fun d' => lowf d' == lowerStr c.login) = none := by
        rw [List.find?_eq_none]
        intro d' hd' hb
        exact hne d' hd' ((eq_of_beq hb).trans hm)
      have hc1 : updCollab C Dp c = c := by
        unfold updCollab
        rw [hfDp]
      have hfD1 : (Dp ++ [d]).find?
          (fun d' => lowf d' == lowerStr c.login) = some d := by
        rw [List.find?_append, hfDp, Option.none_or]
        rw [List.find?_cons_of_pos _ (by rw [hm]; exact beq_self_eq_true _)]
      rw [hc1, if_pos (by exact hm ▸ beq_self_eq_true (lowerStr c.login))]
      unfold updCollab
      rw [hfD1]
      simp [hissued]
    · have hcond : (lowerStr c.login == lowerStr d.username.strOrEmpty)
          = false := beq_eq_false_iff_ne.mpr hm
      have hcond2 : (lowerStr (updCollab C Dp c).login
          == lowerStr d.username.strOrEmpty) = false := by
        rw [login_updCollab]
        exact hcond
      rw [if_neg (by simp [hcond2])]
      exact (updCollab_append_of_not_match C Dp d c hm).symm
  · intro hnone
    exact absurd (hfc.symm.trans hnone) (by simp)

/-- A false permission mismatch is an equality. -/
theorem eq_of_bne_false {a b : String} (h : (a != b) = false) : a = b := by
  unfold bne at h
  rw [Bool.not_eq_false'] at h
  exact eq_of_beq h

/-- Step case: the entry matches a pending invitation already offering the
desired permission; no call is issued. -/
theorem T1Inv_step_B_eq (C : List RepoCollaborator) (I : List RepoInvitation)
    (Dp Ds : List Collaborator) (d : Collaborator) (st : FlatState)
    (i0 : RepoInvitation)
    (hnd : ((Dp ++ d :: Ds).map lowf).Nodup)
    (hfc : C.find? (collabMatches (lowf d)) = none)
    (hfi : I.find? (inviteMatches (lowf d)) = some i0)
    (hperm : (i0.permissions != d.role) = false)
    (hst : T1Inv C I Dp st) : T1Inv C I (Dp ++ [d]) st := by
  have hne := lowf_ne_of_prefix Dp Ds d hnd
  have hrep : inviteReplaced C I d = false := by
    unfold inviteReplaced
    rw [hfc, hfi]
    exact hperm
  refine T1Inv_extend_noop C I Dp d st (addIssued_of_none C d hfc) hrep hst ?_
  intro _
  obtain ⟨h1, ⟨ext, h2, h3, h4⟩, h5⟩ := hst
  rw [h2, inv_find_eq C I Dp d ext h3 hne, hfi]
  exact ⟨i0, rfl, eq_of_bne_false hperm⟩

/-- The canonical (lower-cased) identities of the observed invitations'
present invitees, in order (`invite.invitee.login.toLowerCase()` for the
invitations whose invitee is present). -/
def inviteeKeys (I : List RepoInvitation) : List String :=
  I.filterMap fun i => i.invitee.map fun v => lowerStr v.login

/-- An invitation matching a canonical identity contributes that identity
to the key list. -/
theorem mem_inviteeKeys_of_match (I : List RepoInvitation) (u : String)
    (b : RepoInvitation) (hb : b ∈ I) (hm : inviteMatches u b = true) :
    u ∈ inviteeKeys I := by
  unfold inviteMatches at hm
  cases hbv : b.invitee with
  | none => rw [hbv] at hm; cases hm
  | some v =>
    rw [hbv] at hm
    refine List.mem_filterMap.mpr ⟨b, hb, ?_⟩
    rw [hbv, Option.map_some']
    rw [eq_of_beq hm]

/-- With pairwise-distinct invitee keys, two observed invitations matching
the same canonical identity are the same invitation. -/
theorem inviteMatches_inj (I : List RepoInvitation)
    (hkeys : (inviteeKeys I).Nodup) (u : String) :
    ∀ b1 ∈ I, ∀ b2 ∈ I, inviteMatches u b1 = true →
      inviteMatches u b2 = true → b1 = b2 := by
  induction I with
  | nil =>
    intro b1 hb1
    cases hb1
  | cons i tl ih =>
    intro b1 hb1 b2 hb2 h1 h2
    cases hiv : i.invitee with
    | none =>
      have hkeys' : (inviteeKeys tl).Nodup := by
        have hcons : inviteeKeys (i :: tl) = inviteeKeys tl := by
          simp [inviteeKeys, hiv]
        rw [hcons] at hkeys
        exact hkeys
      rcases List.mem_cons.mp hb1 with rfl | hb1t
      · exfalso
        unfold inviteMatches at h1
        rw [hiv] at h1
        cases h1
      rcases List.mem_cons.mp hb2 with rfl | hb2t
      · exfalso
        unfold inviteMatches at h2
        rw [hiv] at h2
        cases h2
      exact ih hkeys' b1 hb1t b2 hb2t h1 h2
    | some v =>
      have hcons : inviteeKeys (i :: tl)
          = lowerStr v.login :: inviteeKeys tl := by
        simp [inviteeKeys, hiv]
      rw [hcons] at hkeys
      have hnotin := (List.nodup_cons.mp hkeys).1
      have hkeys' := (List.nodup_cons.mp hkeys).2
      rcases List.mem_cons.mp hb1 with rfl | hb1t
      · rcases List.mem_cons.mp hb2 with rfl | hb2t
        · rfl
        · exfalso
          have hu : lowerStr v.login = u := by
            unfold inviteMatches at h1
            rw [hiv] at h1
            exact eq_of_beq h1
          exact hnotin (hu ▸ mem_inviteeKeys_of_match tl u b2 hb2t h2)
      · rcases List.mem_cons.mp hb2 with rfl | hb2t
        · exfalso
          have hu : lowerStr v.login = u := by
            unfold inviteMatches at h2
            rw [hiv] at h2
            exact eq_of_beq h2
          exact hnotin (hu ▸ mem_inviteeKeys_of_match tl u b1 hb1t h1)
        · exact ih hkeys' b1 hb1t b2 hb2t h1 h2

/-- Step case: the entry matches a pending invitation at a different
permission; the invitation is deleted and a fresh upsert is issued, which
creates a fresh invitation (pending invitations are immutable, spec
section 3, so the upsert never patches one in place). -/
theorem T1Inv_step_B_ne (C : List RepoCollaborator) (I : List RepoInvitation)
    (Dp Ds : List Collaborator) (d : Collaborator) (st : FlatState)
    (i0 : RepoInvitation)
    (hnd : ((Dp ++ d :: Ds).map lowf).Nodup)
    (hids : (I.map RepoInvitation.id).Nodup)
    (hkeys : (inviteeKeys I).Nodup)
    (hfc : C.find? (collabMatches (lowf d)) = none)
    (hfi : I.find? (inviteMatches (lowf d)) = some i0)
    (hperm : (i0.permissions != d.role) = true)
    (hst : T1Inv C I Dp st) :
    T1Inv C I (Dp ++ [d])
      (applyCallF (applyCallF st (.deleteInvitation i0.id))
        (.addCollaborator d.username.strOrEmpty d.role)) := by
  obtain ⟨h1, ⟨ext, h2, h3, h4⟩, h5⟩ := hst
  have hne := lowf_ne_of_prefix Dp Ds d hnd
  have hinj := List.inj_on_of_nodup_map hids
  have hrep : inviteReplaced C I d = true := by
    unfold inviteReplaced
    rw [hfc, hfi]
    exact hperm
  have hi0mem : i0 ∈ I := List.mem_of_find?_eq_some hfi
  have hi0match : inviteMatches (lowf d) i0 = true := List.find?_some hfi
  have hkepti0 : keepInv C I Dp i0 = true :=
    keepInv_of_match C I Dp d hne i0 hi0mem hi0match
  have hlowf : lowerStr d.username.strOrEmpty = lowf d := rfl
  -- the invitation list after the deletion, in structured form
  have hkeep' : ∀ b ∈ I.filter (keepInv C I Dp),
      (!(b.id == i0.id)) = keepInv C I (Dp ++ [d]) b := by
    intro b hb
    obtain ⟨hbI, hbk⟩ := List.mem_filter.mp hb
    rw [keepInv_append, hrep, hfi, hbk, Bool.true_and, Bool.true_and]
    by_cases hbi : b = i0
    · subst hbi
      simp
    · have hidne : b.id ≠ i0.id := fun h => hbi (hinj hbI hi0mem h)
      have h1b : (b.id == i0.id) = false := beq_eq_false_iff_ne.mpr hidne
      have h2b : decide (some i0 = some b) = false := by
        rw [decide_eq_false_iff_not]
        intro hc
        exact hbi (Option.some.inj hc).symm
      rw [h1b, h2b]
  have hfiltereq : st.inv.filter (fun i => !(i.id == i0.id))
      = I.filter (keepInv C I (Dp ++ [d])) ++ ext := by
    rw [h2, List.filter_append]
    have hext : ext.filter (fun i => !(i.id == i0.id)) = ext := by
      rw [List.filter_eq_self]
      intro a ha
      have hne0 : i0.id ≠ a.id := h4 a ha i0 hi0mem hkepti0
      have hba : (a.id == i0.id) = false := beq_eq_false_iff_ne.mpr (Ne.symm hne0)
      rw [hba]
      rfl
    rw [hext]
    congr 1
    rw [List.filter_congr hkeep', List.filter_filter]
    apply List.filter_congr
    intro b _
    rw [keepInv_append]
    cases hk : keepInv C I Dp b <;> simp [hk]
  have hst1 : applyCallF st (.deleteInvitation i0.id)
      = ⟨st.cur, I.filter (keepInv C I (Dp ++ [d])) ++ ext⟩ := by
    show ({ st with inv := st.inv.filter fun i => !(i.id == i0.id) }
        : FlatState) = _
    rw [hfiltereq]
  rw [hst1]
  have hnoc : ¬ ((st.cur.any fun c =>
      lowerStr c.login == lowerStr d.username.strOrEmpty) = true) := by
    rw [hlowf, h1, cur_any_eq]
    intro hc
    rcases List.any_eq_true.mp hc with ⟨c, hcmem, hcp⟩
    exact List.find?_eq_none.mp hfc c hcmem hcp
  have hextfind : ext.find? (inviteMatches (lowf d)) = none :=
    ext_find_none Dp d ext h3 hne
  have hcurpart : st.cur = C.map (updCollab C (Dp ++ [d])) := by
    rw [h1]
    exact (List.map_congr_left fun c _ =>
      updCollab_append_of_not_issued C Dp d (addIssued_of_none C d hfc) c).symm
  have himp : ∀ d'' ∈ Dp, ∀ x ∈ st.inv,
      inviteMatches (lowf d'') x = true → (!(x.id == i0.id)) = true := by
    intro d'' hd'' x hx hxm
    rcases List.mem_append.mp (h2 ▸ hx) with hxl | hxr
    · obtain ⟨hbI, _⟩ := List.mem_filter.mp hxl
      have hbne : x ≠ i0 := by
        intro hbe
        subst hbe
        exact hne d'' hd''
          (inviteMatches_unique (lowf d'') (lowf d) x hxm hi0match)
      have hidne : x.id ≠ i0.id := fun h => hbne (hinj hbI hi0mem h)
      rw [beq_eq_false_iff_ne.mpr hidne]
      rfl
    · have hne0 : i0.id ≠ x.id := h4 x hxr i0 hi0mem hkepti0
      rw [beq_eq_false_iff_ne.mpr (Ne.symm hne0)]
      rfl
  -- no surviving observed invitation still matches this identity
  have hsurv_none : ∀ b ∈ I.filter (keepInv C I (Dp ++ [d])),
      ¬ inviteMatches (lowf d) b = true := by
    intro b hb hm
    obtain ⟨hbI, hbk⟩ := List.mem_filter.mp hb
    have hbi0 : b = i0 :=
      inviteMatches_inj I hkeys (lowf d) b hbI i0 hi0mem hm hi0match
    subst hbi0
    rw [keepInv_append, hrep, hfi] at hbk
    simp at hbk
  have happly : applyCallF
      (⟨st.cur, I.filter (keepInv C I (Dp ++ [d])) ++ ext⟩ : FlatState)
      (.addCollaborator d.username.strOrEmpty d.role)
      = ⟨st.cur, (I.filter (keepInv C I (Dp ++ [d])) ++ ext)
          ++ [⟨freshIdF (I.filter (keepInv C I (Dp ++ [d])) ++ ext),
            some ⟨d.username.strOrEmpty⟩, d.role⟩]⟩ := by
    simp only [applyCallF]
    rw [if_neg hnoc]
  rw [happly]
  refine ⟨hcurpart, ⟨ext
    ++ [⟨freshIdF (I.filter (keepInv C I (Dp ++ [d])) ++ ext),
      some ⟨d.username.strOrEmpty⟩, d.role⟩], ?_, ?_, ?_⟩, ?_⟩
  · rw [List.append_assoc]
  · intro i hi
    rcases List.mem_append.mp hi with hio | hin
    · obtain ⟨d', hd', rest⟩ := h3 i hio
      exact ⟨d', List.mem_append.mpr (Or.inl hd'), rest⟩
    · have heqi : i = ⟨freshIdF (I.filter (keepInv C I (Dp ++ [d])) ++ ext),
          some ⟨d.username.strOrEmpty⟩, d.role⟩ := by
        simpa using hin
      subst heqi
      exact ⟨d, List.mem_append.mpr (Or.inr (List.mem_cons_self d [])),
        rfl, rfl⟩
  · intro i hi b hb hk
    have hbkDp : keepInv C I Dp b = true := by
      rw [keepInv_append, Bool.and_eq_true] at hk
      exact hk.1
    rcases List.mem_append.mp hi with hio | hin
    · exact h4 i hio b hb hbkDp
    · have heqi : i = ⟨freshIdF (I.filter (keepInv C I (Dp ++ [d])) ++ ext),
          some ⟨d.username.strOrEmpty⟩, d.role⟩ := by
        simpa using hin
      subst heqi
      have hmem : b ∈ I.filter (keepInv C I (Dp ++ [d])) ++ ext :=
        List.mem_append.mpr (Or.inl (List.mem_filter.mpr ⟨hb, hk⟩))
      exact Nat.ne_of_lt (id_lt_freshIdF _ _ hmem)
  · intro d'' hd'' hfc''
    rcases List.mem_append.mp hd'' with hmem | hmem
    · obtain ⟨j, hj, hjperm⟩ := h5 d'' hmem hfc''
      refine ⟨j, ?_, hjperm⟩
      rw [List.find?_append]
      have hleft : (I.filter (keepInv C I (Dp ++ [d])) ++ ext).find?
          (inviteMatches (lowf d'')) = some j := by
        rw [← hfiltereq,
          find?_filter_of_mem_imp st.inv _ _ (himp d'' hmem)]
        exact hj
      rw [hleft]
      rfl
    · have heq : d'' = d := by simpa using hmem
      subst heq
      have hleftnone : (I.filter (keepInv C I (Dp ++ [d''])) ++ ext).find?
          (inviteMatches (lowf d'')) = none := by
        rw [List.find?_eq_none]
        intro x hx hm
        rcases List.mem_append.mp hx with hxl | hxr
        · exact hsurv_none x hxl hm
        · exact List.find?_eq_none.mp hextfind x hxr hm
      have hnewm : inviteMatches (lowf d'')
          (⟨freshIdF (I.filter (keepInv C I (Dp ++ [d''])) ++ ext),
            some ⟨d''.username.strOrEmpty⟩, d''.role⟩ : RepoInvitation)
          = true := by
        unfold inviteMatches
        exact beq_self_eq_true _
      refine ⟨⟨freshIdF (I.filter (keepInv C I (Dp ++ [d''])) ++ ext),
          some ⟨d''.username.strOrEmpty⟩, d''.role⟩, ?_, rfl⟩
      rw [List.find?_append, hleftnone, Option.none_or]
      simp [hnewm]

/-- Step case: the entry matches neither a collaborator nor an invitation;
one plain upsert is issued, creating a fresh invitation. -/
theorem T1Inv_step_C (C : List RepoCollaborator) (I : List RepoInvitation)
    (Dp Ds : List Collaborator) (d : Collaborator) (st : FlatState)
    (hnd : ((Dp ++ d :: Ds).map lowf).Nodup)
    (hfc : C.find? (collabMatches (lowf d)) = none)
    (hfi : I.find? (inviteMatches (lowf d)) = none)
    (hst : T1Inv C I Dp st) :
    T1Inv C I (Dp ++ [d])
      (applyCallF st (.addCollaborator d.username.strOrEmpty d.role)) := by
  obtain ⟨h1, ⟨ext, h2, h3, h4⟩, h5⟩ := hst
  have hne := lowf_ne_of_prefix Dp Ds d hnd
  have hlowf : lowerStr d.username.strOrEmpty = lowf d := rfl
  have hrep : inviteReplaced C I d = false := by
    unfold inviteReplaced
    rw [hfc, hfi]
  have hnoc : ¬ ((st.cur.any fun c =>
      lowerStr c.login == lowerStr d.username.strOrEmpty) = true) := by
    rw [hlowf, h1, cur_any_eq]
    intro hc
    rcases List.any_eq_true.mp hc with ⟨c, hcmem, hcp⟩
    exact List.find?_eq_none.mp hfc c hcmem hcp
  have hcurpart : st.cur = C.map (updCollab C (Dp ++ [d])) := by
    rw [h1]
    exact (List.map_congr_left fun c _ =>
      updCollab_append_of_not_issued C Dp d (addIssued_of_none C d hfc) c).symm
  have hextfind : ext.find? (inviteMatches (lowf d)) = none :=
    ext_find_none Dp d ext h3 hne
  have hnonef : st.inv.find? (inviteMatches (lowf d)) = none := by
    rw [List.find?_eq_none]
    intro x hx hm
    rcases List.mem_append.mp (h2 ▸ hx) with hxl | hxr
    · obtain ⟨hbI, _⟩ := List.mem_filter.mp hxl
      exact List.find?_eq_none.mp hfi x hbI hm
    · exact List.find?_eq_none.mp hextfind x hxr hm
  have happly : applyCallF st (.addCollaborator d.username.strOrEmpty d.role)
      = ⟨st.cur, st.inv
          ++ [⟨freshIdF st.inv, some ⟨d.username.strOrEmpty⟩, d.role⟩]⟩ := by
    simp only [applyCallF]
    rw [if_neg hnoc]
  rw [happly]
  refine ⟨hcurpart, ⟨ext
    ++ [⟨freshIdF st.inv, some ⟨d.username.strOrEmpty⟩, d.role⟩],
    ?_, ?_, ?_⟩, ?_⟩
  · show st.inv ++ _ = _
    rw [h2, List.append_assoc]
    rw [List.filter_congr fun b _ =>
      keepInv_append_of_not_replaced C I Dp d hrep b]
  · intro i hi
    rcases List.mem_append.mp hi with hio | hin
    · obtain ⟨d', hd', rest⟩ := h3 i hio
      exact ⟨d', List.mem_append.mpr (Or.inl hd'), rest⟩
    · have heqi : i = ⟨freshIdF st.inv, some ⟨d.username.strOrEmpty⟩,
          d.role⟩ := by
        simpa using hin
      subst heqi
      exact ⟨d, List.mem_append.mpr (Or.inr (List.mem_cons_self d [])),
        rfl, rfl⟩
  · intro i hi b hb hk
    have hbkDp : keepInv C I Dp b = true := by
      rw [keepInv_append_of_not_replaced C I Dp d hrep b] at hk
      exact hk
    rcases List.mem_append.mp hi with hio | hin
    · exact h4 i hio b hb hbkDp
    · have heqi : i = ⟨freshIdF st.inv, some ⟨d.username.strOrEmpty⟩,
          d.role⟩ := by
        simpa using hin
      subst heqi
      have hmem : b ∈ st.inv := by
        rw [h2]
        exact List.mem_append.mpr (Or.inl (List.mem_filter.mpr ⟨hb, hbkDp⟩))
      exact Nat.ne_of_lt (id_lt_freshIdF st.inv _ hmem)
  · intro d'' hd'' hfc''
    rcases List.mem_append.mp hd'' with hmem | hmem
    · obtain ⟨j, hj, hjperm⟩ := h5 d'' hmem hfc''
      refine ⟨j, ?_, hjperm⟩
      rw [List.find?_append, hj]
      rfl
    · have heq : d'' = d := by simpa using hmem
      subst heq
      have hnewm : inviteMatches (lowf d'')
          (⟨freshIdF st.inv, some ⟨d''.username.strOrEmpty⟩, d''.role⟩
            : RepoInvitation) = true := by
        unfold inviteMatches
        exact beq_self_eq_true _
      refine ⟨⟨freshIdF st.inv, some ⟨d''.username.strOrEmpty⟩, d''.role⟩,
        ?_, rfl⟩
      rw [List.find?_append, hnonef, Option.none_or]
      simp [hnewm]

/-- One entry's add-or-update calls preserve the invariant. -/
theorem T1Inv_step (C : List RepoCollaborator) (I : List RepoInvitation)
    (Dp Ds : List Collaborator) (d : Collaborator) (st : FlatState)
    (hnd : ((Dp ++ d :: Ds).map lowf).Nodup)
    (hids : (I.map RepoInvitation.id).Nodup)
    (hkeys : (inviteeKeys I).Nodup)
    (hst : T1Inv C I Dp st) :
    T1Inv C I (Dp ++ [d]) (applyTraceF st (addOrUpdateOne C I d)) := by
  cases hfc : C.find? (collabMatches (lowf d)) with
  | some c0 =>
    have hfc' : C.find? (collabMatches (lowerStr d.username.strOrEmpty))
        = some c0 := hfc
    have hentry : addOrUpdateOne C I d
        = handleExistingCollaborator c0 d d.role := by
      simp [addOrUpdateOne, hfc']
    by_cases hrole : (c0.role_name != d.role) = true
    · have htr : addOrUpdateOne C I d
          = [.addCollaborator d.username.strOrEmpty d.role] := by
        rw [hentry]
        unfold handleExistingCollaborator
        rw [if_pos hrole]
      rw [htr]
      exact T1Inv_step_A_ne C I Dp Ds d st c0 hnd hfc hrole hst
    · have htr : addOrUpdateOne C I d = [] := by
        rw [hentry]
        unfold handleExistingCollaborator
        rw [if_neg hrole]
      rw [htr]
      exact T1Inv_step_A_eq C I Dp d st c0 hfc
        (Bool.eq_false_iff.mpr hrole) hst
  | none =>
    have hfc' : C.find? (collabMatches (lowerStr d.username.strOrEmpty))
        = none := hfc
    cases hfi : I.find? (inviteMatches (lowf d)) with
    | some i0 =>
      have hfi' : I.find? (inviteMatches (lowerStr d.username.strOrEmpty))
          = some i0 := hfi
      have hentry : addOrUpdateOne C I d = handlePendingInvite i0 d d.role := by
        simp [addOrUpdateOne, hfc', hfi']
      by_cases hperm : (i0.permissions != d.role) = true
      · have htr : addOrUpdateOne C I d
            = [.deleteInvitation i0.id,
              .addCollaborator d.username.strOrEmpty d.role] := by
          rw [hentry]
          unfold handlePendingInvite
          rw [if_pos hperm]
        rw [htr]
        exact T1Inv_step_B_ne C I Dp Ds d st i0 hnd hids hkeys hfc hfi
          hperm hst
      · have htr : addOrUpdateOne C I d = [] := by
          rw [hentry]
          unfold handlePendingInvite
          rw [if_neg hperm]
        rw [htr]
        exact T1Inv_step_B_eq C I Dp Ds d st i0 hnd hfc hfi
          (Bool.eq_false_iff.mpr hperm) hst
    | none =>
      have hfi' : I.find? (inviteMatches (lowerStr d.username.strOrEmpty))
          = none := hfi
      have htr : addOrUpdateOne C I d
          = [.addCollaborator d.username.strOrEmpty d.role] := by
        simp [addOrUpdateOne, hfc', hfi']
      rw [htr]
      exact T1Inv_step_C C I Dp Ds d st hnd hfc hfi hst

/-- The invariant after the whole add-or-update pass. -/
theorem T1Inv_all (C : List RepoCollaborator) (I : List RepoInvitation)
    (D : List Collaborator)
    (hnd : (D.map lowf).Nodup) (hids : (I.map RepoInvitation.id).Nodup)
    (hkeys : (inviteeKeys I).Nodup) :
    T1Inv C I D
      (applyTraceF ⟨C, I⟩ (processCollaboratorsToAddOrUpdate D C I)) := by
  suffices h : ∀ Ds Dp st, D = Dp ++ Ds → T1Inv C I Dp st →
      T1Inv C I (Dp ++ Ds)
        (applyTraceF st (processCollaboratorsToAddOrUpdate Ds C I)) by
    exact h D [] ⟨C, I⟩ rfl (T1Inv_nil C I)
  intro Ds
  induction Ds with
  | nil =>
    intro Dp st hD hst
    rw [List.append_nil]
    exact hst
  | cons d Ds' ih =>
    intro Dp st hD hst
    have hsplit : processCollaboratorsToAddOrUpdate (d :: Ds') C I
        = addOrUpdateOne C I d
          ++ processCollaboratorsToAddOrUpdate Ds' C I := by
      simp only [processCollaboratorsToAddOrUpdate, List.flatMap_cons]
    rw [hsplit]
    have happ : applyTraceF st (addOrUpdateOne C I d
          ++ processCollaboratorsToAddOrUpdate Ds' C I)
        = applyTraceF (applyTraceF st (addOrUpdateOne C I d))
          (processCollaboratorsToAddOrUpdate Ds' C I) := by
      simp only [applyTraceF, List.foldl_append]
    rw [happ]
    have h1 := T1Inv_step C I Dp Ds' d st (hD ▸ hnd) hids hkeys hst
    have hD' : D = (Dp ++ [d]) ++ Ds' := by
      rw [List.append_assoc]
      exact hD
    have h2 := ih (Dp ++ [d]) _ hD' h1
    rw [show Dp ++ d :: Ds' = (Dp ++ [d]) ++ Ds' from by
      rw [List.append_assoc]; rfl]
    exact h2

/-- Whether a mutating call revokes the collaborator `k`
(case-insensitively). -/
def hitsRemove (k : RepoCollaborator) (c : ApiCall) : Bool :=
  match c with
  | .removeCollaborator l => lowerStr k.login == lowerStr l
  | _ => false

/-- Whether a mutating call deletes the invitation `i` (by id). -/
def hitsDelete (i : RepoInvitation) (c : ApiCall) : Bool :=
  match c with
  | .deleteInvitation n => i.id == n
  | _ => false

/-- Effect of a trace made up only of revoke calls: the invitations are
untouched and the collaborators hit by some call are dropped. -/
theorem applyTraceF_removes (T : List ApiCall)
    (h : ∀ c ∈ T, ∃ l, c = ApiCall.removeCollaborator l) (st : FlatState) :
    applyTraceF st T
      = ⟨st.cur.filter (fun k => !(T.any (hitsRemove k))), st.inv⟩ := by
  induction T generalizing st with
  | nil =>
    show st = _
    cases st with
    | mk cur inv =>
      have : cur.filter (fun k => !(([] : List ApiCall).any (hitsRemove k)))
          = cur := List.filter_eq_self.mpr fun a _ => rfl
      rw [this]
  | cons c cs ih =>
    obtain ⟨l, rfl⟩ := h c (List.mem_cons_self c cs)
    have hstep : applyTraceF st (ApiCall.removeCollaborator l :: cs)
        = applyTraceF (applyCallF st (ApiCall.removeCollaborator l)) cs := rfl
    rw [hstep, ih (fun c hc => h c (List.mem_cons_of_mem _ hc))]
    have hcall : applyCallF st (ApiCall.removeCollaborator l)
        = ⟨st.cur.filter fun k => !(hitsRemove k
            (ApiCall.removeCollaborator l)), st.inv⟩ := rfl
    rw [hcall]
    have hcur : (st.cur.filter fun k => !(hitsRemove k
          (ApiCall.removeCollaborator l))).filter
            (fun k => !(cs.any (hitsRemove k)))
        = st.cur.filter (fun k =>
            !((ApiCall.removeCollaborator l :: cs).any (hitsRemove k))) := by
      rw [List.filter_filter]
      apply List.filter_congr
      intro k _
      rw [List.any_cons, Bool.not_or, Bool.and_comm]
    rw [hcur]

/-- Effect of a trace made up only of invitation-delete calls: the
collaborators are untouched and the invitations hit by some call are
dropped. -/
theorem applyTraceF_deletes (T : List ApiCall)
    (h : ∀ c ∈ T, ∃ n, c = ApiCall.deleteInvitation n) (st : FlatState) :
    applyTraceF st T
      = ⟨st.cur, st.inv.filter (fun i => !(T.any (hitsDelete i)))⟩ := by
  induction T generalizing st with
  | nil =>
    show st = _
    cases st with
    | mk cur inv =>
      have : inv.filter (fun i => !(([] : List ApiCall).any (hitsDelete i)))
          = inv := List.filter_eq_self.mpr fun a _ => rfl
      rw [this]
  | cons c cs ih =>
    obtain ⟨n, rfl⟩ := h c (List.mem_cons_self c cs)
    have hstep : applyTraceF st (ApiCall.deleteInvitation n :: cs)
        = applyTraceF (applyCallF st (ApiCall.deleteInvitation n)) cs := rfl
    rw [hstep, ih (fun c hc => h c (List.mem_cons_of_mem _ hc))]
    have hcall : applyCallF st (ApiCall.deleteInvitation n)
        = ⟨st.cur, st.inv.filter fun i => !(hitsDelete i
            (ApiCall.deleteInvitation n))⟩ := rfl
    rw [hcall]
    have hinv : (st.inv.filter fun i => !(hitsDelete i
          (ApiCall.deleteInvitation n))).filter
            (fun i => !(cs.any (hitsDelete i)))
        = st.inv.filter (fun i =>
            !((ApiCall.deleteInvitation n :: cs).any (hitsDelete i))) := by
      rw [List.filter_filter]
      apply List.filter_congr
      intro i _
      rw [List.any_cons, Bool.not_or, Bool.and_comm]
    rw [hinv]

/-- A collaborator whose canonical login is desired is hit by no call of the
remove-collaborators pass. -/
theorem any_hitsRemove_of_desired (C : List RepoCollaborator)
    (us : List String) (k : RepoCollaborator)
    (hk : lowerStr k.login ∈ us) :
    (processCollaboratorsToRemove C us).any (hitsRemove k) = false := by
  rw [List.any_eq_false]
  intro c hc
  obtain ⟨k', _, hout, rfl⟩ := processCollaboratorsToRemove_origin C us c hc
  intro hhit
  have heq : lowerStr k.login = lowerStr k'.login := eq_of_beq hhit
  rw [heq] at hk
  exact hout hk

/-- A collaborator sharing its canonical login with an observed
collaborator whose canonical login is undesired is hit by the
remove-collaborators pass. -/
theorem any_hitsRemove_of_undesired (C : List RepoCollaborator)
    (us : List String) (k c : RepoCollaborator) (hc : c ∈ C)
    (hlogin : lowerStr k.login = lowerStr c.login)
    (hout : lowerStr c.login ∉ us) :
    (processCollaboratorsToRemove C us).any (hitsRemove k) = true := by
  rw [List.any_eq_true]
  refine ⟨.removeCollaborator c.login, ?_, ?_⟩
  · exact (mem_processCollaboratorsToRemove C us c.login).mpr
      ⟨c, hc, rfl, hout⟩
  · show (lowerStr k.login == lowerStr c.login) = true
    rw [hlogin]
    exact beq_self_eq_true _

/-- An invitation is hit by the remove-invitations pass exactly when some
observed invitation with an undesired present invitee shares its id. -/
theorem any_hitsDelete_iff (I : List RepoInvitation) (us : List String)
    (i : RepoInvitation) :
    (processInvitesToRemove I us).any (hitsDelete i) = true ↔
      ∃ b ∈ I, ∃ v, b.invitee = some v ∧ lowerStr v.login ∉ us
        ∧ i.id = b.id := by
  rw [List.any_eq_true]
  constructor
  · rintro ⟨c, hc, hhit⟩
    obtain ⟨b, hb, v, hv, hout, rfl⟩ :=
      processInvitesToRemove_origin I us c hc
    exact ⟨b, hb, v, hv, hout, eq_of_beq hhit⟩
  · rintro ⟨b, hb, v, hv, hout, hid⟩
    refine ⟨.deleteInvitation b.id, ?_, ?_⟩
    · refine List.mem_flatMap.mpr ⟨b, hb, ?_⟩
      simp [hv, hout]
    · show (i.id == b.id) = true
      rw [hid]
      exact beq_self_eq_true _

/-- The flat state reached after one full run against the observation
`⟨C, I⟩` with validated canonical usernames `us`. -/
def finalStateF (D : List Collaborator) (C : List RepoCollaborator)
    (I : List RepoInvitation) (us : List String) : FlatState :=
  applyTraceF ⟨C, I⟩
    (processCollaboratorsToAddOrUpdate D C I
      ++ processCollaboratorsToRemove C us
      ++ processInvitesToRemove I us)

/-- The final flat state in terms of the state after the add-or-update
pass: the two remove passes are pure filters. -/
theorem finalStateF_eq (D : List Collaborator) (C : List RepoCollaborator)
    (I : List RepoInvitation) (us : List String) :
    finalStateF D C I us
      = ⟨(applyTraceF ⟨C, I⟩
            (processCollaboratorsToAddOrUpdate D C I)).cur.filter
          (fun k => !((processCollaboratorsToRemove C us).any (hitsRemove k))),
        (applyTraceF ⟨C, I⟩
            (processCollaboratorsToAddOrUpdate D C I)).inv.filter
          (fun i => !((processInvitesToRemove I us).any (hitsDelete i)))⟩ := by
  have hrem : ∀ c ∈ processCollaboratorsToRemove C us,
      ∃ l, c = ApiCall.removeCollaborator l := by
    intro c hc
    obtain ⟨k, _, _, hck⟩ := processCollaboratorsToRemove_origin C us c hc
    exact ⟨k.login, hck⟩
  have hdel : ∀ c ∈ processInvitesToRemove I us,
      ∃ n, c = ApiCall.deleteInvitation n := by
    intro c hc
    obtain ⟨j, _, _, _, _, hcj⟩ := processInvitesToRemove_origin I us c hc
    exact ⟨j.id, hcj⟩
  have hsplit : ∀ (st : FlatState) (a b : List ApiCall),
      applyTraceF st (a ++ b) = applyTraceF (applyTraceF st a) b := by
    intro st a b
    simp only [applyTraceF, List.foldl_append]
  unfold finalStateF
  rw [hsplit, hsplit]
  rw [applyTraceF_removes _ hrem, applyTraceF_deletes _ hdel]

/-- After one full run the remote state is converged: a second run's three
passes each produce no mutating call. -/
theorem finalState_converged (D : List Collaborator)
    (C : List RepoCollaborator) (I : List RepoInvitation) (us : List String)
    (hus : us = D.map lowf) (hnd : (D.map lowf).Nodup)
    (hids : (I.map RepoInvitation.id).Nodup)
    (hkeys : (inviteeKeys I).Nodup) :
    processCollaboratorsToAddOrUpdate D (finalStateF D C I us).cur
        (finalStateF D C I us).inv = []
      ∧ processCollaboratorsToRemove (finalStateF D C I us).cur us = []
      ∧ processInvitesToRemove (finalStateF D C I us).inv us = [] := by
  have hfin := finalStateF_eq D C I us
  obtain ⟨hcur1, ⟨ext, hinv1, hext, hextid⟩, hinv3⟩ :=
    T1Inv_all C I D hnd hids hkeys
  have hcurF : (finalStateF D C I us).cur
      = (C.map (updCollab C D)).filter
        (fun k => !((processCollaboratorsToRemove C us).any (hitsRemove k))) := by
    rw [hfin, ← hcur1]
  have hinvF : (finalStateF D C I us).inv
      = (I.filter (keepInv C I D) ++ ext).filter
        (fun i => !((processInvitesToRemove I us).any (hitsDelete i))) := by
    rw [hfin, ← hinv1]
  have hmem_us : ∀ d ∈ D, lowf d ∈ us := by
    intro d hd
    rw [hus]
    exact List.mem_map.mpr ⟨d, hd, rfl⟩
  have hG2 : processCollaboratorsToRemove (finalStateF D C I us).cur us
      = [] := by
    unfold processCollaboratorsToRemove
    rw [List.flatMap_eq_nil_iff]
    intro k hk
    rw [hcurF] at hk
    have hk1 : k ∈ C.map (updCollab C D) := List.mem_of_mem_filter hk
    have hkpred := List.of_mem_filter hk
    obtain ⟨c, hc, rfl⟩ := List.mem_map.mp hk1
    have hlog : lowerStr (updCollab C D c).login = lowerStr c.login := by
      rw [login_updCollab]
    by_cases hcus : lowerStr c.login ∈ us
    · have hkus : lowerStr (updCollab C D c).login ∈ us := by
        rw [hlog]
        exact hcus
      simp [hkus]
    · exfalso
      have hhit := any_hitsRemove_of_undesired C us
        (updCollab C D c) c hc hlog hcus
      rw [hhit] at hkpred
      simp at hkpred
  have hG3 : processInvitesToRemove (finalStateF D C I us).inv us = [] := by
    unfold processInvitesToRemove
    rw [List.flatMap_eq_nil_iff]
    intro i hi
    rw [hinvF] at hi
    have hi1 := List.mem_of_mem_filter hi
    have hipred := List.of_mem_filter hi
    rcases List.mem_append.mp hi1 with hmapm | hextm
    · have hb : i ∈ I := List.mem_of_mem_filter hmapm
      cases hbv : i.invitee with
      | none => simp [hbv]
      | some v =>
        by_cases hvus : lowerStr v.login ∈ us
        · simp [hbv, hvus]
        · exfalso
          have hhit : (processInvitesToRemove I us).any
              (hitsDelete i) = true :=
            (any_hitsDelete_iff I us i).mpr ⟨i, hb, v, hbv, hvus, rfl⟩
          rw [hhit] at hipred
          simp at hipred
    · obtain ⟨d, hd, hinvitee, _⟩ := hext i hextm
      have hvus : lowerStr d.username.strOrEmpty ∈ us := hmem_us d hd
      simp [hinvitee, hvus]
  have hG1 : processCollaboratorsToAddOrUpdate D (finalStateF D C I us).cur
      (finalStateF D C I us).inv = [] := by
    unfold processCollaboratorsToAddOrUpdate
    rw [List.flatMap_eq_nil_iff]
    intro d hd
    have hqcur : ∀ x ∈ C.map (updCollab C D),
        collabMatches (lowf d) x = true →
        (!((processCollaboratorsToRemove C us).any (hitsRemove x)))
          = true := by
      intro x _ hmatch
      have hlog : lowerStr x.login = lowf d := eq_of_beq hmatch
      have hfalse := any_hitsRemove_of_desired C us x
        (by rw [hlog]; exact hmem_us d hd)
      rw [hfalse]
      rfl
    have hfind_cur : (finalStateF D C I us).cur.find?
          (collabMatches (lowf d))
        = (C.find? (collabMatches (lowf d))).map (updCollab C D) := by
      rw [hcurF, find?_filter_of_mem_imp _ _ _ hqcur, cur_find_eq]
    have hqinv : ∀ x ∈ I.filter (keepInv C I D) ++ ext,
        inviteMatches (lowf d) x = true →
        (!((processInvitesToRemove I us).any (hitsDelete x))) = true := by
      intro x hx hmatch
      obtain ⟨v, hv, hveq⟩ : ∃ v, x.invitee = some v
          ∧ lowerStr v.login = lowf d := by
        unfold inviteMatches at hmatch
        cases hxv : x.invitee with
        | none => rw [hxv] at hmatch; cases hmatch
        | some v => rw [hxv] at hmatch; exact ⟨v, rfl, eq_of_beq hmatch⟩
      have hfalse : (processInvitesToRemove I us).any (hitsDelete x)
          = false := by
        rw [← Bool.not_eq_true]
        intro hb
        obtain ⟨b, hb2, w, hw, hwout, hid⟩ :=
          (any_hitsDelete_iff I us x).mp hb
        rcases List.mem_append.mp hx with hmapm | hextm
        · have hb0 : x ∈ I := List.mem_of_mem_filter hmapm
          have hbb : x = b :=
            List.inj_on_of_nodup_map hids hb0 hb2 hid
          rw [← hbb, hv] at hw
          cases hw
          rw [hveq] at hwout
          exact hwout (hmem_us d hd)
        · have hkeepb : keepInv C I D b = true := by
            by_contra hkb
            have hkb' : keepInv C I D b = false := Bool.eq_false_iff.mpr hkb
            unfold keepInv at hkb'
            rw [List.all_eq_false] at hkb'
            obtain ⟨d', hd', hx'⟩ := hkb'
            have hand : (inviteReplaced C I d'
                && decide (I.find? (inviteMatches (lowf d')) = some b))
                = true := by
              cases h : (inviteReplaced C I d'
                  && decide (I.find? (inviteMatches (lowf d')) = some b))
              · exfalso
                apply hx'
                rw [h]
                rfl
              · rfl
            rw [Bool.and_eq_true] at hand
            have hfindb : I.find? (inviteMatches (lowf d')) = some b :=
              of_decide_eq_true hand.2
            have hbm : inviteMatches (lowf d') b = true :=
              List.find?_some hfindb
            unfold inviteMatches at hbm
            rw [hw] at hbm
            rw [eq_of_beq hbm] at hwout
            exact hwout (hmem_us d' hd')
          exact hextid x hextm b hb2 hkeepb hid.symm
      rw [hfalse]
      rfl
    have hfind_inv : C.find? (collabMatches (lowf d)) = none →
        ∃ j, (finalStateF D C I us).inv.find? (inviteMatches (lowf d))
          = some j ∧ j.permissions = d.role := by
      intro hnone
      obtain ⟨j, hj, hjperm⟩ := hinv3 d hd hnone
      refine ⟨j, ?_, hjperm⟩
      rw [hinvF, find?_filter_of_mem_imp _ _ _ hqinv, ← hinv1]
      exact hj
    have hlowf : lowerStr d.username.strOrEmpty = lowf d := rfl
    cases hfc : C.find? (collabMatches (lowf d)) with
    | some c0 =>
      have hfind' : (finalStateF D C I us).cur.find?
          (collabMatches (lowerStr d.username.strOrEmpty))
          = some (updCollab C D c0) := by
        rw [hlowf, hfind_cur, hfc]
        rfl
      have hrole : (updCollab C D c0).role_name = d.role := by
        have hmc : collabMatches (lowf d) c0 = true := List.find?_some hfc
        have hlogc0 : lowerStr c0.login = lowf d := eq_of_beq hmc
        have hfD : D.find? (fun d' => lowf d' == lowerStr c0.login)
            = some d := by
          cases hf : D.find? (fun d' => lowf d' == lowerStr c0.login) with
          | none =>
            exfalso
            rw [List.find?_eq_none] at hf
            exact hf d hd (by rw [hlogc0]; exact beq_self_eq_true _)
          | some d'' =>
            have hd'' : d'' ∈ D := List.mem_of_find?_eq_some hf
            have hpred : (lowf d'' == lowerStr c0.login) = true := by
              have := List.find?_some hf
              exact this
            have heq : lowf d'' = lowf d := by
              rw [← hlogc0]
              exact eq_of_beq hpred
            have hde : d'' = d := List.inj_on_of_nodup_map hnd hd'' hd heq
            rw [hde]
        simp only [updCollab, hfD]
        by_cases hiss : addIssued C d = true
        · rw [if_pos hiss]
        · rw [if_neg hiss]
          have hissf : addIssued C d = false := Bool.eq_false_iff.mpr hiss
          unfold addIssued at hissf
          rw [hfc] at hissf
          exact eq_of_bne_false hissf
      simp only [addOrUpdateOne, hfind']
      unfold handleExistingCollaborator
      rw [hrole]
      simp
    | none =>
      have hfind' : (finalStateF D C I us).cur.find?
          (collabMatches (lowerStr d.username.strOrEmpty)) = none := by
        rw [hlowf, hfind_cur, hfc]
        rfl
      obtain ⟨j, hj, hjperm⟩ := hfind_inv hfc
      have hj' : (finalStateF D C I us).inv.find?
          (inviteMatches (lowerStr d.username.strOrEmpty)) = some j := hj
      simp only [addOrUpdateOne, hfind', hj']
      unfold handlePendingInvite
      rw [hjperm]
      simp
  exact ⟨hG1, hG2, hG3⟩

/-- C1 (amended): idempotence of `syncCollaborators`.  If one run against
remote state `r` succeeds with mutating-call trace `T`, the desired list
validates, the desired canonical (lower-cased) identities are pairwise
distinct, the observed invitation ids are pairwise distinct, and the
observed invitations' canonical invitee identities are pairwise distinct,
then a second run against the remote state produced by applying `T`
(remote transition modelled from the spec's capability semantics, with
pending invitations immutable per spec section 3) succeeds and issues zero
mutating calls.  Without the distinct-canonical-identities hypothesis the
claim is false, see the counterexample. -/
theorem sync_idempotent (D : List Collaborator) (r : RemoteState)
    (us : List String) (T : List ApiCall)
    (hv : getDesiredUsernames D = .ok us)
    (hnd : us.Nodup)
    (hids : (r.invitations.map RepoInvitation.id).Nodup)
    (hkeys : (inviteeKeys r.invitations).Nodup)
    (hrun : syncCollaborators D r = .ok T) :
    syncCollaborators D (applyTrace r T) = .ok [] := by
  have hus0 : us = D.map (fun d => lowerStr d.username.strOrEmpty) :=
    getDesiredUsernames_ok_eq D us hv
  have hus : us = D.map lowf := hus0
  have hndl : (D.map lowf).Nodup := hus ▸ hnd
  have hT := syncCollaborators_ok_eq D r us T hv hrun
  rw [getCurrentState_eq_view] at hT
  have hview : view (applyTrace r T)
      = finalStateF D (view r).cur (view r).inv us := by
    rw [view_applyTrace, hT]
    rfl
  have hidsI : ((view r).inv.map RepoInvitation.id).Nodup := hids
  have hkeysI : (inviteeKeys (view r).inv).Nodup := hkeys
  obtain ⟨hG1, hG2, hG3⟩ :=
    finalState_converged D (view r).cur (view r).inv us hus hndl hidsI hkeysI
  have hobs' : getCurrentState (applyTrace r T)
      = ((finalStateF D (view r).cur (view r).inv us).cur,
        (finalStateF D (view r).cur (view r).inv us).inv) := by
    rw [getCurrentState_eq_view, hview]
  simp only [syncCollaborators, syncRun, hv, hobs', hG1, hG2, hG3,
    List.append_nil, List.nil_append]

/-- Witness for the amended idempotence theorem: one desired entry, one
undesired collaborator and one undesired pending invitation; the second run
after applying the first run's trace issues no calls. -/
theorem sync_idempotent_witness :
    syncCollaborators [⟨UVal.str "alice", "push"⟩]
        (applyTrace ⟨[[⟨"bob", "admin"⟩]], [⟨1, some ⟨"carol"⟩, "push"⟩]⟩
          [.addCollaborator "alice" "push", .removeCollaborator "bob",
            .deleteInvitation 1])
      = .ok [] :=
  sync_idempotent [⟨UVal.str "alice", "push"⟩]
    ⟨[[⟨"bob", "admin"⟩]], [⟨1, some ⟨"carol"⟩, "push"⟩]⟩
    ["alice"]
    [.addCollaborator "alice" "push", .removeCollaborator "bob",
      .deleteInvitation 1]
    (by rfl) (by decide) (by decide) (by decide) (by rfl)

/-- Counterexample to C1 as stated: two desired entries with the same
canonical identity (`a` and `A`) at different roles against an empty remote
state.  The first run succeeds and leaves two pending invitations for that
identity (`push` then `admin`); the second run finds the first one at
`push` while the second desired entry wants `admin`, so it deletes and
re-creates an invitation, issuing mutating calls. -/
theorem sync_idempotent_cex :
    ∃ T, syncCollaborators
        [⟨UVal.str "a", "push"⟩, ⟨UVal.str "A", "admin"⟩] ⟨[], []⟩ = .ok T
      ∧ syncCollaborators [⟨UVal.str "a", "push"⟩, ⟨UVal.str "A", "admin"⟩]
          (applyTrace ⟨[], []⟩ T) ≠ .ok [] := by
  refine ⟨[.addCollaborator "a" "push", .addCollaborator "A" "admin"],
    ?_, ?_⟩
  · rfl
  · intro h
    have h2 : syncCollaborators
        [⟨UVal.str "a", "push"⟩, ⟨UVal.str "A", "admin"⟩]
        (applyTrace ⟨[], []⟩
          [.addCollaborator "a" "push", .addCollaborator "A" "admin"])
        = .ok [.deleteInvitation 1, .addCollaborator "A" "admin"] := by rfl
    rw [h2] at h
    have h3 := Except.ok.inj h
    cases h3

end Collab
